import Mathlib

/-!
Shallow embedding of `tools/exporter.cpp` (an offline OBJ/MTL asset
exporter) and proofs about its parsing and normalization pipeline.

Modelling conventions, used throughout:

* C `float` arithmetic is embedded as exact rational arithmetic (`ℚ`):
  every operation the source performs (sub, mul, div, `1 - v`) is mapped
  to the corresponding exact operation on `ℚ`.
* The text line scanner `get_line_from_buffer` (declared in
  `src/utility.h`, whose body is not among the sources) is modelled from
  the spec contract `next_line(cursor) -> (line, new_cursor | end)`:
  a file is a list of already-split lines, and the cursor after the
  last line is the end marker (`none`).
* Each line is represented in structured form (`ObjLine`, `MtlLine`):
  the constructor corresponds to the directive keyword selected by the
  first whitespace-delimited token of the line, and the constructor
  arguments are the fields that the `sscanf` calls of the source
  extract.  Directive lines whose argument lists would fail the
  `assert(matches == k)` checks of the source abort the process and are
  outside the structured constructors (a free-form line is
  `ObjLine.other`, which carries its raw first character and token
  list, because the source inspects raw characters of adjacent lines
  when naming meshes).  Face (`f`) records are the exception: their
  corner list is kept in raw token shape (`Corner`) so that the
  `sscanf` match counting of the face branch is modelled faithfully.
* `exit(1)`, stores through an out-of-range element pointer, and
  failing `assert` calls are modelled as `Except` error values.
* Memory returned by `realloc`/`new[]` is modelled as zero-initialized
  (empty strings, zero rationals); the source reads such memory fresh
  (for example the `normal_tex[0] == 0` guard of `map_bump`).
-/

/-- 2D float vector (external math primitive, `src/vec_math.h`).
Modelled from the spec: component pair over exact scalars. -/
structure Vec2 where
  x : ℚ
  y : ℚ
deriving DecidableEq, Repr

/-- 3D float vector (external math primitive, `src/vec_math.h`).
Modelled from the spec: component triple over exact scalars. -/
structure Vec3 where
  x : ℚ
  y : ℚ
  z : ℚ
deriving DecidableEq, Repr

def vec2Zero : Vec2 := ⟨0, 0⟩

def vec3Zero : Vec3 := ⟨0, 0, 0⟩

/-- Modelled from the spec: `vec2_sub` of `src/vec_math.h`,
component-wise subtraction. -/
def vec2_sub (a b : Vec2) : Vec2 := ⟨a.x - b.x, a.y - b.y⟩

/-- Modelled from the spec: `vec3_sub` of `src/vec_math.h`,
component-wise subtraction. -/
def vec3_sub (a b : Vec3) : Vec3 := ⟨a.x - b.x, a.y - b.y, a.z - b.z⟩

/-- Modelled from the spec: `vec3_mul_scalar` of `src/vec_math.h`,
component-wise scaling. -/
def vec3_mul_scalar (a : Vec3) (s : ℚ) : Vec3 := ⟨a.x * s, a.y * s, a.z * s⟩

/-- One corner token of an `f` record, in raw shape: `ptn` is a token of
the textured grammar `p/t/n`, `pn` is a token of the untextured grammar
`p//n`, and `junk` is a token that starts with no integer at all. -/
inductive Corner where
  | ptn (p t n : Int)
  | pn (p n : Int)
  | junk
deriving DecidableEq, Repr

/-- One structured line of a scene (OBJ) file; constructor = the
directive keyword `sscanf(line, "%s", line_header)` extracts. -/
inductive ObjLine where
  | v (x y z : ℚ)
  | vt (x y : ℚ)
  | vn (x y z : ℚ)
  | g (name : String)
  | usemtl (name : String)
  | mtllib (path : String)
  | f (corners : List Corner)
  | blank
  | other (firstChar : Char) (toks : List String)
deriving DecidableEq, Repr

/-- Raw first character of a line (the source tests `prev_line[0]` and
`next_line[0]` directly on the file buffer). A `blank` line has no
token; its raw first character is a newline, which we model as `none`
(it is in particular never the letter checked for). -/
def lineFirstChar : ObjLine → Option Char
  | .v _ _ _ => some 'v'
  | .vt _ _ => some 'v'
  | .vn _ _ _ => some 'v'
  | .g _ => some 'g'
  | .usemtl _ => some 'u'
  | .mtllib _ => some 'm'
  | .f _ => some 'f'
  | .blank => none
  | .other c _ => some c

/-- Second whitespace-delimited token of a line, as extracted by
`sscanf(line, "%s %s", header, name)`. Only consulted by the source on
lines whose first character is the group letter. -/
def lineSecondTok : ObjLine → Option String
  | .g n => some n
  | .usemtl n => some n
  | .mtllib p => some p
  | .other _ ts => ts[1]?
  | _ => none

/-! ## Pass 2 of `_load_obj`: attribute fill (source lines 334-360)

State of the second `while` loop: the flat attribute arrays plus the
`textured` flag.  The texcoord array is seeded with the default
texcoord `{0.5f, 0.5f}` pushed before any parsing (source lines
276-277). -/

structure Pass2St where
  positions : List Vec3
  texcoords : List Vec2
  normals : List Vec3
  textured : Bool
deriving DecidableEq, Repr

/-- One iteration of the attribute-fill loop.  Note that the `v` branch
of the source sets `textured = 0` and the `vt` branch sets
`textured = 1` (source lines 342-353). -/
def pass2Step (st : Pass2St) (l : ObjLine) : Pass2St :=
  match l with
  | .v x y z => { st with positions := st.positions ++ [⟨x, y, z⟩], textured := false }
  | .vt x y => { st with texcoords := st.texcoords ++ [⟨x, y⟩], textured := true }
  | .vn x y z => { st with normals := st.normals ++ [⟨x, y, z⟩] }
  | _ => st

def pass2Init : Pass2St := ⟨[], [⟨1/2, 1/2⟩], [], false⟩

/-- The attribute-fill pass over a whole file. -/
def pass2 (lines : List ObjLine) : Pass2St := lines.foldl pass2Step pass2Init

/-- Is this line one of the two attribute lines that write the
`textured` flag? -/
def isAttrLine : ObjLine → Bool
  | .v _ _ _ => true
  | .vt _ _ => true
  | _ => false

/-- Amended-claim side for C2: the flag value the fill pass ends with is
determined by the last `v`/`vt` line of the file (true exactly when that
last flag-writing line is a `vt`). -/
def lastAttrIsVt (lines : List ObjLine) : Bool :=
  match (lines.filter isAttrLine).getLast? with
  | some (.vt _ _) => true
  | _ => false

theorem pass2_foldl_from (st : Pass2St) (ls : List ObjLine) (l : ObjLine) :
    (ls ++ [l]).foldl pass2Step st = pass2Step (ls.foldl pass2Step st) l := by
  simp [List.foldl_append]

/-- C2 counterexample: a file containing a `vt` line followed by a `v`
line ends the attribute-fill pass with the flag cleared, even though
the file contains a `vt` line. -/
theorem textured_flag_c2_counterexample :
    (ObjLine.vt 0 0) ∈ [ObjLine.vt 0 0, ObjLine.v 0 0 0] ∧
      (pass2 [ObjLine.vt 0 0, ObjLine.v 0 0 0]).textured = false := by
  constructor
  · exact List.mem_cons_self _ _
  · rfl

/-- C2 (amended): after the attribute-fill pass, the flag that selects
the face-record grammar is set if and only if the last line among the
file's `v`/`vt` lines is a `vt` line (equivalently: the file contains a
`vt` line with no later `v` line).  The flag is file-global: it is a
single value computed once by this pass for the whole file. -/
theorem textured_flag_c2_amended (lines : List ObjLine) :
    (pass2 lines).textured = lastAttrIsVt lines := by
  induction lines using List.reverseRecOn with
  | nil => rfl
  | append_singleton ls l ih =>
    rw [pass2, pass2_foldl_from]
    cases l with
    | v x y z =>
        simp [pass2Step, lastAttrIsVt, List.filter_append, isAttrLine]
    | vt x y =>
        simp [pass2Step, lastAttrIsVt, List.filter_append, isAttrLine]
    | vn x y z =>
        simpa [pass2Step, lastAttrIsVt, List.filter_append, isAttrLine] using ih
    | g n =>
        simpa [pass2Step, lastAttrIsVt, List.filter_append, isAttrLine] using ih
    | usemtl n =>
        simpa [pass2Step, lastAttrIsVt, List.filter_append, isAttrLine] using ih
    | mtllib p =>
        simpa [pass2Step, lastAttrIsVt, List.filter_append, isAttrLine] using ih
    | f cs =>
        simpa [pass2Step, lastAttrIsVt, List.filter_append, isAttrLine] using ih
    | blank =>
        simpa [pass2Step, lastAttrIsVt, List.filter_append, isAttrLine] using ih
    | other c ts =>
        simpa [pass2Step, lastAttrIsVt, List.filter_append, isAttrLine] using ih

/-! ## Material library parser `_load_mtl_file` (source lines 96-164)

The source first counts `newmtl` lines to size the reallocation and
then walks a material cursor that starts one slot before the first
material owned by this file (`(scene->materials - 1) + orig_num_materials`)
and is incremented on each `newmtl`.  In the list model the cursor is
always the last element of the accumulated material list; a directive
arriving while the whole list is empty touches the slot before the
array, which is the out-of-bounds error branch. -/

/-- One structured line of a material library file. -/
inductive MtlLine where
  | newmtl (name : String)
  | map_Kd (path : String)
  | map_bump (path : String)
  | Ks (r g b : ℚ)
  | Ns (v : ℚ)
  | other
deriving DecidableEq, Repr

structure MaterialData where
  name : String
  albedo_tex : String
  normal_tex : String
  specular_color : Vec3
  specular_power : ℚ
  specular_coefficient : ℚ
deriving DecidableEq, Repr

/-- The material slot right after the `newmtl` branch ran on it: the
name is filled in and `specular_power` is set to `16.0f` (source line
145); the remaining fields model the zero-initialized reallocation. -/
def freshMaterial (n : String) : MaterialData :=
  { name := n, albedo_tex := "", normal_tex := "",
    specular_color := vec3Zero, specular_power := 16,
    specular_coefficient := 0 }

inductive MtlErr where
  | oobWrite
deriving DecidableEq, Repr

/-- Apply a field update through the material cursor (the last element);
with no material at the cursor this is the access one slot before the
array. -/
def updateLast : List MaterialData → (MaterialData → MaterialData) →
    Except MtlErr (List MaterialData)
  | [], _ => .error .oobWrite
  | [m], f => .ok [f m]
  | m :: m2 :: ms, f =>
    match updateLast (m2 :: ms) f with
    | .ok ms' => .ok (m :: ms')
    | .error e => .error e

/-- One iteration of the material-creation loop (source lines 134-162).
The `map_bump` branch is guarded by `normal_tex[0] == 0`, so only an
empty path field is ever overwritten. -/
def mtlStep (ms : List MaterialData) (l : MtlLine) :
    Except MtlErr (List MaterialData) :=
  match l with
  | .newmtl n => .ok (ms ++ [freshMaterial n])
  | .map_Kd p => updateLast ms (fun m => { m with albedo_tex := p })
  | .map_bump p =>
    updateLast ms (fun m =>
      if m.normal_tex = "" then { m with normal_tex := p } else m)
  | .Ks r g b => updateLast ms (fun m => { m with specular_color := ⟨r, g, b⟩ })
  | .Ns v => updateLast ms (fun m => { m with specular_coefficient := v })
  | .other => .ok ms

/-- The whole material library parse, starting from the materials
accumulated by earlier files of the run. -/
def mtlRun : List MtlLine → List MaterialData →
    Except MtlErr (List MaterialData)
  | [], ms => .ok ms
  | l :: ls, ms =>
    match mtlStep ms l with
    | .ok ms' => mtlRun ls ms'
    | .error e => .error e

/-- Effect of a run of non-`newmtl` directives on the single material at
the cursor. -/
def segStep (m : MaterialData) (l : MtlLine) : MaterialData :=
  match l with
  | .map_Kd p => { m with albedo_tex := p }
  | .map_bump p => if m.normal_tex = "" then { m with normal_tex := p } else m
  | .Ks r g b => { m with specular_color := ⟨r, g, b⟩ }
  | .Ns v => { m with specular_coefficient := v }
  | _ => m

def applySeg (ds : List MtlLine) (m : MaterialData) : MaterialData :=
  ds.foldl segStep m

def isNewmtl : MtlLine → Bool
  | .newmtl _ => true
  | _ => false

/-- Path of the first `map_bump` line of a directive list. -/
def firstMapBump : List MtlLine → Option String
  | [] => none
  | .map_bump p :: _ => some p
  | _ :: ls => firstMapBump ls

theorem updateLast_concat (pre : List MaterialData) (m : MaterialData)
    (f : MaterialData → MaterialData) :
    updateLast (pre ++ [m]) f = .ok (pre ++ [f m]) := by
  induction pre with
  | nil => rfl
  | cons a pre ih =>
    cases pre with
    | nil => simp [updateLast]
    | cons b pre => simp [updateLast] at ih ⊢ ; rw [ih]

theorem mtlStep_seg (l : MtlLine) (hl : isNewmtl l = false)
    (pre : List MaterialData) (m : MaterialData) :
    mtlStep (pre ++ [m]) l = .ok (pre ++ [segStep m l]) := by
  cases l with
  | newmtl n => simp [isNewmtl] at hl
  | map_Kd p => simp [mtlStep, segStep, updateLast_concat]
  | map_bump p => simp [mtlStep, segStep, updateLast_concat]
  | Ks r g b => simp [mtlStep, segStep, updateLast_concat]
  | Ns v => simp [mtlStep, segStep, updateLast_concat]
  | other => simp [mtlStep, segStep]

theorem mtlRun_seg (ds : List MtlLine) (hds : ∀ l ∈ ds, isNewmtl l = false) :
    ∀ (pre : List MaterialData) (m : MaterialData),
    mtlRun ds (pre ++ [m]) = .ok (pre ++ [applySeg ds m]) := by
  induction ds with
  | nil => intro pre m; simp [mtlRun, applySeg]
  | cons l ds ih =>
    intro pre m
    have hl : isNewmtl l = false := hds l (List.mem_cons_self _ _)
    have hds' : ∀ x ∈ ds, isNewmtl x = false := fun x hx => hds x (List.mem_cons_of_mem _ hx)
    simp only [mtlRun, mtlStep_seg l hl pre m]
    simpa [applySeg] using ih hds' pre (segStep m l)

theorem mtlRun_append (l1 l2 : List MtlLine) (ms msP : List MaterialData)
    (h : mtlRun l1 ms = .ok msP) :
    mtlRun (l1 ++ l2) ms = mtlRun l2 msP := by
  induction l1 generalizing ms with
  | nil => simp [mtlRun] at h; simp [h]
  | cons l ls ih =>
    simp only [mtlRun] at h ⊢
    cases hstep : mtlStep ms l with
    | ok ms' => rw [hstep] at h; simp only [List.cons_append]; exact ih ms' h
    | error e => rw [hstep] at h; cases h

/-- After the first `map_bump` writes a nonempty path, `normal_tex`
never changes again. -/
theorem applySeg_normal_tex_stable (ds : List MtlLine) :
    ∀ (m : MaterialData), m.normal_tex ≠ "" →
    (applySeg ds m).normal_tex = m.normal_tex := by
  induction ds with
  | nil => intro m _; rfl
  | cons l ds ih =>
    intro m hm
    have : applySeg (l :: ds) m = applySeg ds (segStep m l) := by simp [applySeg]
    rw [this]
    have hstep : (segStep m l).normal_tex = m.normal_tex := by
      cases l <;> simp [segStep, hm]
    rw [ih (segStep m l) (by rw [hstep]; exact hm), hstep]

theorem applySeg_first_map_bump (ds : List MtlLine) :
    ∀ (m : MaterialData), m.normal_tex = "" →
    ∀ p, firstMapBump ds = some p → p ≠ "" →
    (applySeg ds m).normal_tex = p := by
  induction ds with
  | nil => intro m _ p hp; cases hp
  | cons l ds ih =>
    intro m hm p hp hne
    have hcons : applySeg (l :: ds) m = applySeg ds (segStep m l) := by simp [applySeg]
    cases l with
    | map_bump q =>
      have hq : q = p := by simpa [firstMapBump] using hp
      subst hq
      have hwrite : segStep m (.map_bump q) = { m with normal_tex := q } := by
        simp [segStep, hm]
      rw [hcons, hwrite]
      exact applySeg_normal_tex_stable ds _ (by simpa using hne)
    | newmtl n =>
      rw [hcons]
      exact ih _ (by simpa [segStep] using hm) p (by simpa [firstMapBump] using hp) hne
    | map_Kd q =>
      rw [hcons]
      exact ih _ (by simpa [segStep] using hm) p (by simpa [firstMapBump] using hp) hne
    | Ks r g b =>
      rw [hcons]
      exact ih _ (by simpa [segStep] using hm) p (by simpa [firstMapBump] using hp) hne
    | Ns v =>
      rw [hcons]
      exact ih _ (by simpa [segStep] using hm) p (by simpa [firstMapBump] using hp) hne
    | other =>
      rw [hcons]
      exact ih _ (by simpa [segStep] using hm) p (by simpa [firstMapBump] using hp) hne

theorem applySeg_append (d1 d2 : List MtlLine) (m : MaterialData) :
    applySeg (d1 ++ d2) m = applySeg d2 (applySeg d1 m) := by
  simp [applySeg, List.foldl_append]

/-- C5: when a material library holds two or more `map_bump` lines for
the same material, only the first is recorded.  Stated for a material
opened by `newmtl <n>` whose directive segment is `ds` (no further
`newmtl` inside `ds`, so every line of `ds` addresses this material):
the parsed material is `applySeg ds (freshMaterial n)`, its
`normal_tex` equals the path of the first `map_bump` line of `ds`, and
deleting any `map_bump` line that has an earlier `map_bump` line leaves
the parsed material unchanged. -/
theorem map_bump_first_wins_c5 (ms0 msP msF : List MaterialData)
    (pre ds : List MtlLine) (n p : String)
    (hds : ∀ l ∈ ds, isNewmtl l = false)
    (hp : firstMapBump ds = some p) (hne : p ≠ "")
    (hpre : mtlRun pre ms0 = .ok msP)
    (hrun : mtlRun (pre ++ MtlLine.newmtl n :: ds) ms0 = .ok msF) :
    msF = msP ++ [applySeg ds (freshMaterial n)] ∧
    (applySeg ds (freshMaterial n)).normal_tex = p ∧
    (∀ q d1 d2, ds = d1 ++ MtlLine.map_bump q :: d2 →
      (∃ r, firstMapBump d1 = some r ∧ r ≠ "") →
      applySeg ds (freshMaterial n) = applySeg (d1 ++ d2) (freshMaterial n)) := by
  have hshape : msF = msP ++ [applySeg ds (freshMaterial n)] := by
    have h1 : mtlRun (pre ++ MtlLine.newmtl n :: ds) ms0 =
        mtlRun (MtlLine.newmtl n :: ds) msP := mtlRun_append _ _ _ _ hpre
    rw [h1] at hrun
    have h2 : mtlRun (MtlLine.newmtl n :: ds) msP =
        mtlRun ds (msP ++ [freshMaterial n]) := by
      simp [mtlRun, mtlStep]
    rw [h2, mtlRun_seg ds hds msP (freshMaterial n)] at hrun
    exact (Except.ok.injEq _ _ ▸ hrun.symm).symm ▸ by
      cases hrun; rfl
  refine ⟨hshape, ?_, ?_⟩
  · exact applySeg_first_map_bump ds (freshMaterial n) rfl p hp hne
  · rintro q d1 d2 rfl ⟨r, hr, hrne⟩
    rw [applySeg_append, applySeg_append]
    have hfirst : (applySeg d1 (freshMaterial n)).normal_tex = r :=
      applySeg_first_map_bump d1 (freshMaterial n) rfl r hr hrne
    have hnz : (applySeg d1 (freshMaterial n)).normal_tex ≠ "" := by
      rw [hfirst]; exact hrne
    have hstep : applySeg (MtlLine.map_bump q :: d2) (applySeg d1 (freshMaterial n)) =
        applySeg d2 (segStep (applySeg d1 (freshMaterial n)) (MtlLine.map_bump q)) := by
      simp [applySeg]
    have hid : segStep (applySeg d1 (freshMaterial n)) (MtlLine.map_bump q) =
        applySeg d1 (freshMaterial n) := by
      simp only [segStep]
      rw [if_neg hnz]
    rw [hstep, hid]

def c5WitnessMat : MaterialData :=
  { name := "m", albedo_tex := "", normal_tex := "a",
    specular_color := vec3Zero, specular_power := 16,
    specular_coefficient := 0 }

/-- Witness for C5 at a concrete library: `newmtl m`, then
`map_bump a`, then `map_bump b`; the recorded path is `a`. -/
theorem map_bump_first_wins_c5_witness :
    [c5WitnessMat] = [] ++ [applySeg [MtlLine.map_bump "a", MtlLine.map_bump "b"] (freshMaterial "m")] ∧
    (applySeg [MtlLine.map_bump "a", MtlLine.map_bump "b"] (freshMaterial "m")).normal_tex = "a" ∧
    (∀ q d1 d2,
      [MtlLine.map_bump "a", MtlLine.map_bump "b"] = d1 ++ MtlLine.map_bump q :: d2 →
      (∃ r, firstMapBump d1 = some r ∧ r ≠ "") →
      applySeg [MtlLine.map_bump "a", MtlLine.map_bump "b"] (freshMaterial "m") =
        applySeg (d1 ++ d2) (freshMaterial "m")) :=
  map_bump_first_wins_c5 [] [] [c5WitnessMat] []
    [MtlLine.map_bump "a", MtlLine.map_bump "b"] "m" "a"
    (by decide) (by decide) (by decide) rfl rfl

theorem updateLast_power (ms : List MaterialData)
    (f : MaterialData → MaterialData)
    (hf : ∀ m, (f m).specular_power = m.specular_power) :
    ∀ ms', updateLast ms f = .ok ms' →
    ∀ i, (ms'.get? i).map MaterialData.specular_power =
      (ms.get? i).map MaterialData.specular_power := by
  induction ms with
  | nil => intro ms' h; simp [updateLast] at h
  | cons m ms ih =>
    intro ms' h i
    cases ms with
    | nil =>
      simp [updateLast] at h
      subst h
      cases i with
      | zero => simp [hf]
      | succ j => simp
    | cons m2 ms2 =>
      cases hrec : updateLast (m2 :: ms2) f with
      | error e => simp [updateLast, hrec] at h
      | ok msr =>
        simp [updateLast, hrec] at h
        subst h
        cases i with
        | zero => simp
        | succ j => simpa using ih msr hrec j

/-- Every material slot at index `k` or later holds `specular_power = 16`. -/
def powerInv (k : Nat) (ms : List MaterialData) : Prop :=
  ∀ i m, k ≤ i → ms.get? i = some m → m.specular_power = 16

theorem mtlStep_power (k : Nat) (ms : List MaterialData) (l : MtlLine)
    (ms' : List MaterialData) (h : mtlStep ms l = .ok ms')
    (hinv : powerInv k ms) : powerInv k ms' := by
  have viaUpdate : ∀ (f : MaterialData → MaterialData),
      (∀ m, (f m).specular_power = m.specular_power) →
      updateLast ms f = .ok ms' → powerInv k ms' := by
    intro f hf hup i m hk hget
    have := updateLast_power ms f hf ms' hup i
    rw [hget] at this
    cases hms : ms.get? i with
    | none => rw [hms] at this; simp at this
    | some m0 =>
      rw [hms] at this
      simp at this
      rw [this]
      exact hinv i m0 hk hms
  cases l with
  | newmtl n =>
    simp [mtlStep] at h
    subst h
    intro i m hk hget
    by_cases hi : i < ms.length
    · rw [List.get?_append hi] at hget
      exact hinv i m hk hget
    · have hge : ms.length ≤ i := Nat.le_of_not_lt hi
      rw [List.get?_append_right hge] at hget
      cases hj : i - ms.length with
      | zero => rw [hj] at hget; simp at hget; rw [← hget, freshMaterial]
      | succ j => rw [hj] at hget; simp at hget
  | map_Kd p =>
    simp only [mtlStep] at h
    refine viaUpdate _ ?_ h
    intro m
    rfl
  | map_bump p =>
    simp only [mtlStep] at h
    refine viaUpdate _ ?_ h
    intro m
    by_cases hm : m.normal_tex = "" <;> simp [hm]
  | Ks r g b =>
    simp only [mtlStep] at h
    refine viaUpdate _ ?_ h
    intro m
    rfl
  | Ns v =>
    simp only [mtlStep] at h
    refine viaUpdate _ ?_ h
    intro m
    rfl
  | other => simp [mtlStep] at h; subst h; exact hinv

theorem mtlRun_power (k : Nat) (lines : List MtlLine) :
    ∀ (ms msF : List MaterialData), mtlRun lines ms = .ok msF →
    powerInv k ms → powerInv k msF := by
  induction lines with
  | nil => intro ms msF h hinv; simp [mtlRun] at h; subst h; exact hinv
  | cons l ls ih =>
    intro ms msF h hinv
    cases hstep : mtlStep ms l with
    | error e => simp [mtlRun, hstep] at h
    | ok ms' =>
      simp only [mtlRun, hstep] at h
      exact ih ms' msF h (mtlStep_power k ms l ms' hstep hinv)

/-- C10: every material the library parser appends (every slot past the
materials that existed before this parse) ends with
`specular_power = 16`, whatever the library contains: only the `newmtl`
branch ever writes `specular_power` (to the constant `16.0f`), and the
`Ns` directive writes its float into `specular_coefficient` only. -/
theorem specular_power_const_c10 (lines : List MtlLine)
    (ms0 msF : List MaterialData) (hrun : mtlRun lines ms0 = .ok msF) :
    ∀ i m, ms0.length ≤ i → msF.get? i = some m → m.specular_power = 16 := by
  have h0 : powerInv ms0.length ms0 := by
    intro i m hk hget
    exfalso
    rw [List.get?_eq_none.mpr hk] at hget
    cases hget
  exact mtlRun_power ms0.length lines ms0 msF hrun h0

def c10WitnessMat : MaterialData :=
  { name := "a", albedo_tex := "", normal_tex := "",
    specular_color := vec3Zero, specular_power := 16,
    specular_coefficient := 5 }

/-- Witness for C10 at a concrete library `newmtl a; Ns 5`. -/
theorem specular_power_const_c10_witness : c10WitnessMat.specular_power = 16 :=
  specular_power_const_c10 [MtlLine.newmtl "a", MtlLine.Ns 5] [] [c10WitnessMat]
    rfl 0 c10WitnessMat (Nat.le_refl 0) rfl

/-! ## Pass 3 of `_load_obj`: group/face pass (source lines 363-456)

The triangle-group cursor, the mesh cursor and the model cursor all
start one slot before their arrays and advance on each `usemtl`
(source lines 366-368, 382-385).  In the list model the cursor is the
last element of the accumulated list; a store that happens while the
list is still empty goes through the slot before the array and is the
out-of-bounds error branch. -/

/-- `int3` (source lines 216-238): one face corner's attribute index
triple.  The source orders triples lexicographically for use as a map
key; the map resolves exactly equal triples. -/
structure int3 where
  p : Int
  t : Int
  n : Int
deriving DecidableEq, Repr

/-- `Triangle` (source lines 239-242): exactly three corners. -/
structure Triangle where
  c0 : int3
  c1 : int3
  c2 : int3
deriving DecidableEq, Repr

/-- Conversion count of the textured face format
`"%s %d/%d/%d %d/%d/%d %d/%d/%d %d/%d/%d"` over the corner tokens that
follow the header: a full `p/t/n` token converts 3 integers; a `p//n`
token converts its leading integer and then fails the second `%d`
against the second slash; a token with no leading integer fails at
once; the format has 4 corner slots, later tokens are never read. -/
def scanT : List Corner → Nat → Nat
  | _, 0 => 0
  | [], _ + 1 => 0
  | .ptn _ _ _ :: rest, k + 1 => 3 + scanT rest k
  | .pn _ _ :: _, _ + 1 => 1
  | .junk :: _, _ + 1 => 0

/-- `matches` returned by the textured-face `sscanf` (the `%s` header
conversion counts 1). -/
def matchesT (cs : List Corner) : Nat := 1 + scanT cs 4

/-- Conversion count of the untextured face format
`"%s %d//%d %d//%d %d//%d %d//%d"`: a `p//n` token converts 2 integers;
a `p/t/n` token converts its leading integer and then fails the second
literal slash against the texcoord digit. -/
def scanU : List Corner → Nat → Nat
  | _, 0 => 0
  | [], _ + 1 => 0
  | .pn _ _ :: rest, k + 1 => 2 + scanU rest k
  | .ptn _ _ _ :: _, _ + 1 => 1
  | .junk :: _, _ + 1 => 0

/-- `matches` returned by the untextured-face `sscanf`. -/
def matchesU (cs : List Corner) : Nat := 1 + scanU cs 4

/-- The `int3` the face branch stores for a matched corner token; in
untextured mode the texcoord index is forced to 0 (source lines
432-436). -/
def cornerIdx : Corner → int3
  | .ptn p t n => ⟨p, t, n⟩
  | .pn p n => ⟨p, 0, n⟩
  | .junk => ⟨0, 0, 0⟩

def cornerAt (cs : List Corner) (i : Nat) : int3 := cornerIdx (cs.getD i .junk)

inductive P3Err where
  | formatExit
  | oobStore
  | assertFail
deriving DecidableEq, Repr

/-- The face branch (source lines 406-453): reject with a diagnostic,
buffer release and `exit(1)` — modelled by `formatExit` — unless the
conversion count is that of exactly 3 or exactly 4 corners of the
selected grammar; a quad is split into triangles (0,1,2) and (0,2,3). -/
def faceTriangles (textured : Bool) (cs : List Corner) :
    Except P3Err (List Triangle) :=
  if textured then
    if matchesT cs = 10 then
      .ok [⟨cornerAt cs 0, cornerAt cs 1, cornerAt cs 2⟩]
    else if matchesT cs = 13 then
      .ok [⟨cornerAt cs 0, cornerAt cs 1, cornerAt cs 2⟩,
           ⟨cornerAt cs 0, cornerAt cs 2, cornerAt cs 3⟩]
    else .error .formatExit
  else
    if matchesU cs = 7 then
      .ok [⟨cornerAt cs 0, cornerAt cs 1, cornerAt cs 2⟩]
    else if matchesU cs = 9 then
      .ok [⟨cornerAt cs 0, cornerAt cs 1, cornerAt cs 2⟩,
           ⟨cornerAt cs 0, cornerAt cs 2, cornerAt cs 3⟩]
    else .error .formatExit

structure Pass3St where
  groups : List (List Triangle)
  meshes : List String
  models : List (String × String)
deriving DecidableEq, Repr

def startsWithG : Option ObjLine → Bool
  | some l => lineFirstChar l == some 'g'
  | none => false

/-- `sscanf(adjacent_line, "%s %s", line_header, name)` with
`assert(matches == 2)` (source lines 392-396). -/
def gName : Option ObjLine → Except P3Err String
  | some l =>
    match lineSecondTok l with
    | some n => .ok n
    | none => .error .assertFail
  | none => .error .assertFail

/-- Mesh-name resolution at a `usemtl` boundary (source lines 390-402):
use the raw previous line when its first character is the group letter,
else the raw next line likewise, else synthesize
`"mesh" ++ N` where `N = current_mesh - scene->meshes` is the 0-based
run-wide mesh ordinal. -/
def resolveMeshName (orig cnt : Nat) (prev next : Option ObjLine) :
    Except P3Err String :=
  if startsWithG prev then gName prev
  else if startsWithG next then gName next
  else .ok ("mesh" ++ toString (orig + cnt))

/-- The `usemtl` branch (source lines 382-404): advance the group, mesh
and model cursors, resolve the mesh name, and record the
mesh-name/material-name binding in the model. -/
def handleUsemtl (orig : Nat) (prev next : Option ObjLine) (mat : String)
    (st : Pass3St) : Except P3Err Pass3St :=
  match resolveMeshName orig st.meshes.length prev next with
  | .ok name =>
    .ok { groups := st.groups ++ [[]],
          meshes := st.meshes ++ [name],
          models := st.models ++ [(name, mat)] }
  | .error e => .error e

def appendToLast (ts : List Triangle) :
    List (List Triangle) → List (List Triangle)
  | [] => []
  | [gr] => [gr ++ ts]
  | gr :: gr2 :: rest => gr :: appendToLast ts (gr2 :: rest)

/-- `mesh_triangles->push_back(...)`: append into the group at the
cursor; with no `usemtl` seen yet the cursor is one slot before the
group array (source line 366), the out-of-bounds branch. -/
def pushTris (st : Pass3St) (ts : List Triangle) : Except P3Err Pass3St :=
  match st.groups with
  | [] => .error .oobStore
  | _ :: _ => .ok { st with groups := appendToLast ts st.groups }

def pass3Step (textured : Bool) (orig : Nat) (prev next : Option ObjLine)
    (l : ObjLine) (st : Pass3St) : Except P3Err Pass3St :=
  match l with
  | .usemtl mat => handleUsemtl orig prev next mat st
  | .f cs =>
    match faceTriangles textured cs with
    | .ok ts => pushTris st ts
    | .error e => .error e
  | _ => .ok st

def pass3Go (textured : Bool) (orig : Nat) (prev : Option ObjLine)
    (st : Pass3St) : List ObjLine → Except P3Err Pass3St
  | [] => .ok st
  | l :: rest =>
    match pass3Step textured orig prev rest.head? l st with
    | .ok st' => pass3Go textured orig (some l) st' rest
    | .error e => .error e

/-- The whole group/face pass; `orig` is `orig_num_meshes`, the mesh
count accumulated by earlier files of the run. -/
def pass3 (textured : Bool) (orig : Nat) (lines : List ObjLine) :
    Except P3Err Pass3St :=
  pass3Go textured orig none ⟨[], [], []⟩ lines

def isPtn : Corner → Bool
  | .ptn _ _ _ => true
  | _ => false

def isPn : Corner → Bool
  | .pn _ _ => true
  | _ => false

theorem scanT_all_ptn (cs : List Corner) (h : ∀ c ∈ cs, isPtn c = true) :
    ∀ k, scanT cs k = 3 * min cs.length k := by
  induction cs with
  | nil => intro k; cases k <;> simp [scanT]
  | cons c cs ih =>
    intro k
    cases k with
    | zero => simp [scanT]
    | succ k =>
      cases c with
      | ptn p t n =>
        have := ih (fun x hx => h x (List.mem_cons_of_mem _ hx)) k
        simp [scanT, this, Nat.succ_min_succ, Nat.mul_succ, Nat.mul_add]
        ring
      | pn p n => exact absurd (h _ (List.mem_cons_self _ _)) (by simp [isPtn])
      | junk => exact absurd (h _ (List.mem_cons_self _ _)) (by simp [isPtn])

theorem scanU_all_pn (cs : List Corner) (h : ∀ c ∈ cs, isPn c = true) :
    ∀ k, scanU cs k = 2 * min cs.length k := by
  induction cs with
  | nil => intro k; cases k <;> simp [scanU]
  | cons c cs ih =>
    intro k
    cases k with
    | zero => simp [scanU]
    | succ k =>
      cases c with
      | pn p n =>
        have := ih (fun x hx => h x (List.mem_cons_of_mem _ hx)) k
        simp [scanU, this, Nat.succ_min_succ, Nat.mul_succ, Nat.mul_add]
        ring
      | ptn p t n => exact absurd (h _ (List.mem_cons_self _ _)) (by simp [isPn])
      | junk => exact absurd (h _ (List.mem_cons_self _ _)) (by simp [isPn])

/-- C3 counterexample: a face record with five textured corners is not
rejected; it is silently accepted as a quad built from the first four
corners, and inside the group/face pass it contributes two triangles to
the open group without any diagnostic or exit. -/
theorem face_count_c3_counterexample :
    faceTriangles true
        [Corner.ptn 1 1 1, Corner.ptn 2 2 2, Corner.ptn 3 3 3,
         Corner.ptn 4 4 4, Corner.ptn 5 5 5] =
      .ok [⟨⟨1, 1, 1⟩, ⟨2, 2, 2⟩, ⟨3, 3, 3⟩⟩,
           ⟨⟨1, 1, 1⟩, ⟨3, 3, 3⟩, ⟨4, 4, 4⟩⟩] ∧
    pass3 true 0
        [ObjLine.usemtl "m",
         ObjLine.f [Corner.ptn 1 1 1, Corner.ptn 2 2 2, Corner.ptn 3 3 3,
                    Corner.ptn 4 4 4, Corner.ptn 5 5 5]] =
      .ok ⟨[[⟨⟨1, 1, 1⟩, ⟨2, 2, 2⟩, ⟨3, 3, 3⟩⟩,
             ⟨⟨1, 1, 1⟩, ⟨3, 3, 3⟩, ⟨4, 4, 4⟩⟩]],
           ["mesh0"], [("mesh0", "m")]⟩ := by
  constructor <;> rfl

/-- C3 (amended): in the grammar selected by the textured flag, a face
record whose corner tokens all match the grammar is fatal (diagnostic,
buffer release, `exit(1)`) when it has fewer than 3 corners, is
accepted as one triangle at exactly 3 corners, and is accepted as two
triangles (0,1,2),(0,2,3) at 4 or more corners — corners past the
fourth are silently ignored, not rejected.  A face whose first corner
token is of the other grammar is fatal. -/
theorem face_grammar_c3_amended (cs : List Corner) :
    ((∀ c ∈ cs, isPtn c = true) →
      (cs.length ≤ 2 → faceTriangles true cs = .error .formatExit) ∧
      (cs.length = 3 → faceTriangles true cs =
        .ok [⟨cornerAt cs 0, cornerAt cs 1, cornerAt cs 2⟩]) ∧
      (4 ≤ cs.length → faceTriangles true cs =
        .ok [⟨cornerAt cs 0, cornerAt cs 1, cornerAt cs 2⟩,
             ⟨cornerAt cs 0, cornerAt cs 2, cornerAt cs 3⟩])) ∧
    ((∀ c ∈ cs, isPn c = true) →
      (cs.length ≤ 2 → faceTriangles false cs = .error .formatExit) ∧
      (cs.length = 3 → faceTriangles false cs =
        .ok [⟨cornerAt cs 0, cornerAt cs 1, cornerAt cs 2⟩]) ∧
      (4 ≤ cs.length → faceTriangles false cs =
        .ok [⟨cornerAt cs 0, cornerAt cs 1, cornerAt cs 2⟩,
             ⟨cornerAt cs 0, cornerAt cs 2, cornerAt cs 3⟩])) ∧
    (∀ p n rest, cs = Corner.pn p n :: rest →
      faceTriangles true cs = .error .formatExit) ∧
    (∀ p t n rest, cs = Corner.ptn p t n :: rest →
      faceTriangles false cs = .error .formatExit) := by
  refine ⟨?_, ?_, ?_, ?_⟩
  · intro h
    have hm : matchesT cs = 1 + 3 * min cs.length 4 := by
      rw [matchesT, scanT_all_ptn cs h]
    refine ⟨?_, ?_, ?_⟩
    · intro hlen
      have : matchesT cs ≠ 10 ∧ matchesT cs ≠ 13 := by
        constructor <;> (rw [hm]; omega)
      simp [faceTriangles, this.1, this.2]
    · intro hlen
      have : matchesT cs = 10 := by rw [hm, hlen]; omega
      simp [faceTriangles, this]
    · intro hlen
      have h13 : matchesT cs = 13 := by
        rw [hm]; have : min cs.length 4 = 4 := by omega
        rw [this]
      have h10 : matchesT cs ≠ 10 := by rw [h13]; omega
      simp [faceTriangles, h13, h10]
  · intro h
    have hm : matchesU cs = 1 + 2 * min cs.length 4 := by
      rw [matchesU, scanU_all_pn cs h]
    refine ⟨?_, ?_, ?_⟩
    · intro hlen
      have : matchesU cs ≠ 7 ∧ matchesU cs ≠ 9 := by
        constructor <;> (rw [hm]; omega)
      simp [faceTriangles, this.1, this.2]
    · intro hlen
      have : matchesU cs = 7 := by rw [hm, hlen]; omega
      simp [faceTriangles, this]
    · intro hlen
      have h9 : matchesU cs = 9 := by
        rw [hm]; have : min cs.length 4 = 4 := by omega
        rw [this]
      have h7 : matchesU cs ≠ 7 := by rw [h9]; omega
      simp [faceTriangles, h9, h7]
  · rintro p n rest rfl
    simp [faceTriangles, matchesT, scanT]
  · rintro p t n rest rfl
    simp [faceTriangles, matchesU, scanU]

/-- Witness for C3 (amended) at a concrete 3-corner textured face. -/
theorem face_grammar_c3_amended_witness :
    faceTriangles true [Corner.ptn 1 1 1, Corner.ptn 2 2 2, Corner.ptn 3 3 3] =
      .ok [⟨⟨1, 1, 1⟩, ⟨2, 2, 2⟩, ⟨3, 3, 3⟩⟩] :=
  ((face_grammar_c3_amended
      [Corner.ptn 1 1 1, Corner.ptn 2 2 2, Corner.ptn 3 3 3]).1
    (by decide)).2.1 rfl

/-- Amended-claim side for C4: mesh-name precedence as the code
implements it — (a) the second token of the raw immediately preceding
line (blank lines count as lines) whenever that line's first character
is the group letter; else (b) likewise for the raw immediately
following line; else (c) the synthesized `"mesh<N>"` with `N` the
0-based run-wide mesh ordinal. -/
def specMeshName (orig cnt : Nat) (prev next : Option ObjLine) :
    Option String :=
  if startsWithG prev then prev.bind lineSecondTok
  else if startsWithG next then next.bind lineSecondTok
  else some ("mesh" ++ toString (orig + cnt))

theorem resolveMeshName_spec (orig cnt : Nat) (prev next : Option ObjLine)
    (name : String)
    (h : resolveMeshName orig cnt prev next = .ok name) :
    specMeshName orig cnt prev next = some name := by
  unfold resolveMeshName at h
  unfold specMeshName
  by_cases hp : startsWithG prev = true
  · rw [if_pos hp] at h ⊢
    cases prev with
    | none => simp [startsWithG] at hp
    | some pl =>
      simp only [gName] at h
      cases hs : lineSecondTok pl with
      | none => rw [hs] at h; cases h
      | some n => rw [hs] at h; cases h; simp [hs]
  · rw [if_neg hp] at h ⊢
    by_cases hn : startsWithG next = true
    · rw [if_pos hn] at h ⊢
      cases next with
      | none => simp [startsWithG] at hn
      | some nl =>
        simp only [gName] at h
        cases hs : lineSecondTok nl with
        | none => rw [hs] at h; cases h
        | some n => rw [hs] at h; cases h; simp [hs]
    · rw [if_neg hn] at h ⊢
      cases h
      rfl

/-- C4 counterexample: with `g Turret`, then a blank line, then
`usemtl Metal`, the immediately preceding non-empty line is the `g`
directive, so the claim requires the mesh name `"Turret"`; the code
only inspects the raw immediately preceding line — the blank one — and
falls through to the synthesized name `"mesh0"`. -/
theorem mesh_name_c4_counterexample :
    pass3 false 0 [ObjLine.g "Turret", ObjLine.blank, ObjLine.usemtl "Metal"] =
      .ok ⟨[[]], ["mesh0"], [("mesh0", "Metal")]⟩ ∧
    "mesh0" ≠ "Turret" := by
  constructor
  · rfl
  · decide

/-- C4 (amended): at every `usemtl` boundary that the group/face pass
completes, exactly one mesh and one model are appended; the mesh name
follows the precedence (a) second token of the raw immediately
preceding line — blank or not — when that line starts with the group
letter, else (b) second token of the raw immediately following line
when it starts with the group letter, else (c) `"mesh<N>"` with `N`
the 0-based run-wide mesh ordinal; and the model records exactly this
mesh name together with the material name. -/
theorem mesh_name_c4_amended (orig : Nat) (prev next : Option ObjLine)
    (mat : String) (st st' : Pass3St)
    (h : handleUsemtl orig prev next mat st = .ok st') :
    ∃ name, specMeshName orig st.meshes.length prev next = some name ∧
      st'.meshes = st.meshes ++ [name] ∧
      st'.models = st.models ++ [(name, mat)] ∧
      st'.groups = st.groups ++ [[]] := by
  unfold handleUsemtl at h
  cases hr : resolveMeshName orig st.meshes.length prev next with
  | error e => rw [hr] at h; cases h
  | ok name =>
    rw [hr] at h
    cases h
    exact ⟨name, resolveMeshName_spec _ _ _ _ _ hr, rfl, rfl, rfl⟩

/-- Witness for C4 (amended): `g Turret` immediately followed by
`usemtl Metal` names the mesh `"Turret"` and the model records it. -/
theorem mesh_name_c4_amended_witness :
    (⟨[[]], ["Turret"], [("Turret", "Metal")]⟩ : Pass3St).meshes =
      [] ++ ["Turret"] ∧
    (⟨[[]], ["Turret"], [("Turret", "Metal")]⟩ : Pass3St).models =
      [] ++ [("Turret", "Metal")] := by
  obtain ⟨name, h1, h2, h3, h4⟩ :=
    mesh_name_c4_amended 0 (some (ObjLine.g "Turret")) none "Metal"
      ⟨[], [], []⟩ ⟨[[]], ["Turret"], [("Turret", "Metal")]⟩ rfl
  have hname : (some "Turret" : Option String) = some name := h1
  have : name = "Turret" := (Option.some.inj hname).symm
  subst this
  exact ⟨h2, h3⟩

/-! ## Pass 1 of `_load_obj`: count pass (source lines 290-321) -/

structure Pass1St where
  num_total_vertices : Nat
  num_total_texcoords : Nat
  num_total_normals : Nat
  num_meshes : Nat
  scene_num_meshes : Nat
  scene_num_models : Nat
  materials : List MaterialData
deriving DecidableEq, Repr

/-- One iteration of the count loop: `v`/`vt`/`vn` tally attribute
totals; each `usemtl` increments the local mesh counter and both scene
counters; each `mtllib` immediately runs the material library parser
on the referenced file (`env` maps a path to that file's lines). -/
def pass1Step (env : String → List MtlLine) (st : Pass1St) (l : ObjLine) :
    Except MtlErr Pass1St :=
  match l with
  | .v _ _ _ => .ok { st with num_total_vertices := st.num_total_vertices + 1 }
  | .vt _ _ => .ok { st with num_total_texcoords := st.num_total_texcoords + 1 }
  | .vn _ _ _ => .ok { st with num_total_normals := st.num_total_normals + 1 }
  | .usemtl _ =>
    .ok { st with num_meshes := st.num_meshes + 1,
                  scene_num_meshes := st.scene_num_meshes + 1,
                  scene_num_models := st.scene_num_models + 1 }
  | .mtllib p =>
    match mtlRun (env p) st.materials with
    | .ok ms => .ok { st with materials := ms }
    | .error e => .error e
  | _ => .ok st

def pass1 (env : String → List MtlLine) :
    List ObjLine → Pass1St → Except MtlErr Pass1St
  | [], st => .ok st
  | l :: ls, st =>
    match pass1Step env st l with
    | .ok st' => pass1 env ls st'
    | .error e => .error e

def isUsemtl : ObjLine → Bool
  | .usemtl _ => true
  | _ => false

/-- Number of `usemtl` directives in a file. -/
def countUsemtl (lines : List ObjLine) : Nat :=
  (lines.filter isUsemtl).length

theorem pass1_counts (env : String → List MtlLine) (lines : List ObjLine) :
    ∀ (st0 st1 : Pass1St), pass1 env lines st0 = .ok st1 →
    st1.scene_num_meshes = st0.scene_num_meshes + countUsemtl lines ∧
    st1.scene_num_models = st0.scene_num_models + countUsemtl lines := by
  induction lines with
  | nil =>
    intro st0 st1 h
    simp [pass1] at h
    subst h
    simp [countUsemtl]
  | cons l ls ih =>
    intro st0 st1 h
    cases hstep : pass1Step env st0 l with
    | error e => simp [pass1, hstep] at h
    | ok st' =>
      simp only [pass1, hstep] at h
      obtain ⟨h1, h2⟩ := ih st' st1 h
      cases l with
      | usemtl n =>
        simp only [pass1Step, Except.ok.injEq] at hstep
        subst hstep
        constructor <;> (simp [countUsemtl, isUsemtl] at h1 h2 ⊢ <;> omega)
      | v x y z =>
        simp only [pass1Step, Except.ok.injEq] at hstep
        subst hstep
        simpa [countUsemtl, isUsemtl] using ⟨h1, h2⟩
      | vt x y =>
        simp only [pass1Step, Except.ok.injEq] at hstep
        subst hstep
        simpa [countUsemtl, isUsemtl] using ⟨h1, h2⟩
      | vn x y z =>
        simp only [pass1Step, Except.ok.injEq] at hstep
        subst hstep
        simpa [countUsemtl, isUsemtl] using ⟨h1, h2⟩
      | g n =>
        simp only [pass1Step, Except.ok.injEq] at hstep
        subst hstep
        simpa [countUsemtl, isUsemtl] using ⟨h1, h2⟩
      | mtllib p =>
        simp only [pass1Step] at hstep
        cases hm : mtlRun (env p) st0.materials with
        | error e => rw [hm] at hstep; cases hstep
        | ok ms =>
          rw [hm] at hstep
          cases hstep
          simpa [countUsemtl, isUsemtl] using ⟨h1, h2⟩
      | f cs =>
        simp only [pass1Step, Except.ok.injEq] at hstep
        subst hstep
        simpa [countUsemtl, isUsemtl] using ⟨h1, h2⟩
      | blank =>
        simp only [pass1Step, Except.ok.injEq] at hstep
        subst hstep
        simpa [countUsemtl, isUsemtl] using ⟨h1, h2⟩
      | other c ts =>
        simp only [pass1Step, Except.ok.injEq] at hstep
        subst hstep
        simpa [countUsemtl, isUsemtl] using ⟨h1, h2⟩

theorem pass3Go_counts (textured : Bool) (orig : Nat) (lines : List ObjLine) :
    ∀ (prev : Option ObjLine) (st st' : Pass3St),
    pass3Go textured orig prev st lines = .ok st' →
    st'.meshes.length = st.meshes.length + countUsemtl lines ∧
    st'.models.length = st.models.length + countUsemtl lines := by
  induction lines with
  | nil =>
    intro prev st st' h
    simp [pass3Go] at h
    subst h
    simp [countUsemtl]
  | cons l rest ih =>
    intro prev st st' h
    cases hstep : pass3Step textured orig prev rest.head? l st with
    | error e => simp [pass3Go, hstep] at h
    | ok st1 =>
      simp only [pass3Go, hstep] at h
      obtain ⟨h1, h2⟩ := ih (some l) st1 st' h
      cases l with
      | usemtl mat =>
        simp only [pass3Step, handleUsemtl] at hstep
        cases hr : resolveMeshName orig st.meshes.length prev rest.head? with
        | error e => rw [hr] at hstep; cases hstep
        | ok name =>
          rw [hr] at hstep
          cases hstep
          constructor <;> (simp [countUsemtl, isUsemtl] at h1 h2 ⊢ <;> omega)
      | f cs =>
        simp only [pass3Step] at hstep
        cases hf : faceTriangles textured cs with
        | error e => rw [hf] at hstep; cases hstep
        | ok ts =>
          rw [hf] at hstep
          simp only [pushTris] at hstep
          cases hg : st.groups with
          | nil => rw [hg] at hstep; cases hstep
          | cons g0 gs =>
            rw [hg] at hstep
            cases hstep
            simpa [countUsemtl, isUsemtl] using ⟨h1, h2⟩
      | v x y z =>
        simp only [pass3Step, Except.ok.injEq] at hstep
        subst hstep
        simpa [countUsemtl, isUsemtl] using ⟨h1, h2⟩
      | vt x y =>
        simp only [pass3Step, Except.ok.injEq] at hstep
        subst hstep
        simpa [countUsemtl, isUsemtl] using ⟨h1, h2⟩
      | vn x y z =>
        simp only [pass3Step, Except.ok.injEq] at hstep
        subst hstep
        simpa [countUsemtl, isUsemtl] using ⟨h1, h2⟩
      | g n =>
        simp only [pass3Step, Except.ok.injEq] at hstep
        subst hstep
        simpa [countUsemtl, isUsemtl] using ⟨h1, h2⟩
      | mtllib p =>
        simp only [pass3Step, Except.ok.injEq] at hstep
        subst hstep
        simpa [countUsemtl, isUsemtl] using ⟨h1, h2⟩
      | blank =>
        simp only [pass3Step, Except.ok.injEq] at hstep
        subst hstep
        simpa [countUsemtl, isUsemtl] using ⟨h1, h2⟩
      | other c ts =>
        simp only [pass3Step, Except.ok.injEq] at hstep
        subst hstep
        simpa [countUsemtl, isUsemtl] using ⟨h1, h2⟩

/-- C8: for every scene file both passes complete on, the count pass
adds exactly one to `scene->num_meshes` and one to `scene->num_models`
per `usemtl` directive, and the group/face pass appends exactly one
mesh record and one model record per `usemtl` boundary — so the number
of `Mesh` entries and the number of `Model` entries added to the scene
each equal the number of `usemtl` directives encountered.  Stated with
arbitrary starting counters, this also gives the run-wide statement
across files by composition. -/
theorem mesh_model_count_c8 (env : String → List MtlLine)
    (lines : List ObjLine) (st0 st1 : Pass1St)
    (h1 : pass1 env lines st0 = .ok st1)
    (textured : Bool) (orig : Nat) (st3 : Pass3St)
    (h3 : pass3 textured orig lines = .ok st3) :
    st1.scene_num_meshes = st0.scene_num_meshes + countUsemtl lines ∧
    st1.scene_num_models = st0.scene_num_models + countUsemtl lines ∧
    st3.meshes.length = countUsemtl lines ∧
    st3.models.length = countUsemtl lines := by
  obtain ⟨a, b⟩ := pass1_counts env lines st0 st1 h1
  obtain ⟨c, d⟩ := pass3Go_counts textured orig lines none ⟨[], [], []⟩ st3 h3
  exact ⟨a, b, by simpa using c, by simpa using d⟩

def c8WitnessP1 : Pass1St := ⟨0, 0, 0, 1, 1, 1, []⟩

def c8WitnessP3 : Pass3St := ⟨[[]], ["mesh0"], [("mesh0", "m")]⟩

/-- Witness for C8 at the one-line file `usemtl m`. -/
theorem mesh_model_count_c8_witness :
    c8WitnessP1.scene_num_meshes = 0 + countUsemtl [ObjLine.usemtl "m"] ∧
    c8WitnessP1.scene_num_models = 0 + countUsemtl [ObjLine.usemtl "m"] ∧
    c8WitnessP3.meshes.length = countUsemtl [ObjLine.usemtl "m"] ∧
    c8WitnessP3.models.length = countUsemtl [ObjLine.usemtl "m"] :=
  mesh_model_count_c8 (fun _ => []) [ObjLine.usemtl "m"]
    ⟨0, 0, 0, 0, 0, 0, []⟩ c8WitnessP1 rfl false 0 c8WitnessP3 rfl

/-- Acceptance of a face record: the conversion count equals that of
exactly 3 or exactly 4 corners of the selected grammar. -/
def faceAccepted (textured : Bool) (cs : List Corner) : Bool :=
  if textured then matchesT cs == 10 || matchesT cs == 13
  else matchesU cs == 7 || matchesU cs == 9

/-- The mesh-naming asserts never fire on this line: if it starts with
the group letter, it has a second token. -/
def gOk (l : ObjLine) : Prop :=
  lineFirstChar l = some 'g' → (lineSecondTok l).isSome = true

/-- Is the first face-or-group line of the file a face record (an `f`
record not preceded by any `usemtl` record)? -/
def fBeforeUsemtl : List ObjLine → Bool
  | [] => false
  | .usemtl _ :: _ => false
  | .f _ :: _ => true
  | _ :: rest => fBeforeUsemtl rest

theorem exists_f_shift (l : ObjLine) (rest : List ObjLine)
    (hnotf : ∀ cs, l ≠ .f cs) (hnotu : ∀ nm, l ≠ .usemtl nm) :
    (∃ k cs, (l :: rest).get? k = some (.f cs) ∧
       ∀ j nm, j < k → (l :: rest).get? j ≠ some (.usemtl nm)) ↔
    (∃ k cs, rest.get? k = some (.f cs) ∧
       ∀ j nm, j < k → rest.get? j ≠ some (.usemtl nm)) := by
  constructor
  · rintro ⟨k, cs, hk, hpre⟩
    cases k with
    | zero =>
      simp only [List.get?_cons_zero, Option.some.injEq] at hk
      exact absurd hk (hnotf cs)
    | succ k =>
      refine ⟨k, cs, by simpa using hk, ?_⟩
      intro j nm hj
      have := hpre (j + 1) nm (Nat.succ_lt_succ hj)
      simpa using this
  · rintro ⟨k, cs, hk, hpre⟩
    refine ⟨k + 1, cs, by simpa using hk, ?_⟩
    intro j nm hj
    cases j with
    | zero =>
      simp only [List.get?_cons_zero, ne_eq, Option.some.injEq]
      exact hnotu nm
    | succ j =>
      have := hpre j nm (Nat.lt_of_succ_lt_succ hj)
      simpa using this

theorem fBeforeUsemtl_iff (lines : List ObjLine) :
    fBeforeUsemtl lines = true ↔
      ∃ k cs, lines.get? k = some (.f cs) ∧
        ∀ j nm, j < k → lines.get? j ≠ some (.usemtl nm) := by
  induction lines with
  | nil => simp [fBeforeUsemtl]
  | cons l rest ih =>
    cases l with
    | usemtl nm =>
      simp only [fBeforeUsemtl, Bool.false_eq_true, false_iff]
      rintro ⟨k, cs, hk, hpre⟩
      cases k with
      | zero => simp at hk
      | succ k => exact hpre 0 nm (Nat.succ_pos k) (by simp)
    | f cs0 =>
      simp only [fBeforeUsemtl, true_iff]
      exact ⟨0, cs0, rfl, fun j nm hj => absurd hj (Nat.not_lt_zero j)⟩
    | v x y z =>
      have hshift := exists_f_shift (ObjLine.v x y z) rest
        (fun cs h => ObjLine.noConfusion h) (fun nm h => ObjLine.noConfusion h)
      rw [show fBeforeUsemtl (ObjLine.v x y z :: rest) = fBeforeUsemtl rest from rfl, ih]
      exact hshift.symm
    | vt x y =>
      have hshift := exists_f_shift (ObjLine.vt x y) rest
        (fun cs h => ObjLine.noConfusion h) (fun nm h => ObjLine.noConfusion h)
      rw [show fBeforeUsemtl (ObjLine.vt x y :: rest) = fBeforeUsemtl rest from rfl, ih]
      exact hshift.symm
    | vn x y z =>
      have hshift := exists_f_shift (ObjLine.vn x y z) rest
        (fun cs h => ObjLine.noConfusion h) (fun nm h => ObjLine.noConfusion h)
      rw [show fBeforeUsemtl (ObjLine.vn x y z :: rest) = fBeforeUsemtl rest from rfl, ih]
      exact hshift.symm
    | g n =>
      have hshift := exists_f_shift (ObjLine.g n) rest
        (fun cs h => ObjLine.noConfusion h) (fun nm h => ObjLine.noConfusion h)
      rw [show fBeforeUsemtl (ObjLine.g n :: rest) = fBeforeUsemtl rest from rfl, ih]
      exact hshift.symm
    | mtllib p =>
      have hshift := exists_f_shift (ObjLine.mtllib p) rest
        (fun cs h => ObjLine.noConfusion h) (fun nm h => ObjLine.noConfusion h)
      rw [show fBeforeUsemtl (ObjLine.mtllib p :: rest) = fBeforeUsemtl rest from rfl, ih]
      exact hshift.symm
    | blank =>
      have hshift := exists_f_shift (ObjLine.blank) rest
        (fun cs h => ObjLine.noConfusion h) (fun nm h => ObjLine.noConfusion h)
      rw [show fBeforeUsemtl (ObjLine.blank :: rest) = fBeforeUsemtl rest from rfl, ih]
      exact hshift.symm
    | other c ts =>
      have hshift := exists_f_shift (ObjLine.other c ts) rest
        (fun cs h => ObjLine.noConfusion h) (fun nm h => ObjLine.noConfusion h)
      rw [show fBeforeUsemtl (ObjLine.other c ts :: rest) = fBeforeUsemtl rest from rfl, ih]
      exact hshift.symm

theorem resolveMeshName_ok (orig cnt : Nat) (prev next : Option ObjLine)
    (hprev : ∀ l, prev = some l → gOk l)
    (hnext : ∀ l, next = some l → gOk l) :
    ∃ name, resolveMeshName orig cnt prev next = .ok name := by
  unfold resolveMeshName
  by_cases hp : startsWithG prev = true
  · rw [if_pos hp]
    cases prev with
    | none => simp [startsWithG] at hp
    | some pl =>
      have hchar : lineFirstChar pl = some 'g' := by
        simpa [startsWithG] using hp
      have hs := hprev pl rfl hchar
      cases hsome : lineSecondTok pl with
      | none => rw [hsome] at hs; cases hs
      | some n => exact ⟨n, by simp [gName, hsome]⟩
  · rw [if_neg hp]
    by_cases hn : startsWithG next = true
    · rw [if_pos hn]
      cases next with
      | none => simp [startsWithG] at hn
      | some nl =>
        have hchar : lineFirstChar nl = some 'g' := by
          simpa [startsWithG] using hn
        have hs := hnext nl rfl hchar
        cases hsome : lineSecondTok nl with
        | none => rw [hsome] at hs; cases hs
        | some n => exact ⟨n, by simp [gName, hsome]⟩
    · rw [if_neg hn]
      exact ⟨_, rfl⟩

theorem faceTriangles_ok (textured : Bool) (cs : List Corner)
    (h : faceAccepted textured cs = true) :
    ∃ ts, faceTriangles textured cs = .ok ts := by
  cases textured with
  | true =>
    have h' : matchesT cs = 10 ∨ matchesT cs = 13 := by
      simpa [faceAccepted] using h
    rcases h' with h' | h'
    · exact ⟨[⟨cornerAt cs 0, cornerAt cs 1, cornerAt cs 2⟩],
        by simp [faceTriangles, h']⟩
    · by_cases h10 : matchesT cs = 10
      · exact ⟨[⟨cornerAt cs 0, cornerAt cs 1, cornerAt cs 2⟩],
          by simp [faceTriangles, h10]⟩
      · exact ⟨[⟨cornerAt cs 0, cornerAt cs 1, cornerAt cs 2⟩,
                ⟨cornerAt cs 0, cornerAt cs 2, cornerAt cs 3⟩],
          by simp [faceTriangles, h10, h']⟩
  | false =>
    have h' : matchesU cs = 7 ∨ matchesU cs = 9 := by
      simpa [faceAccepted] using h
    rcases h' with h' | h'
    · exact ⟨[⟨cornerAt cs 0, cornerAt cs 1, cornerAt cs 2⟩],
        by simp [faceTriangles, h']⟩
    · by_cases h7 : matchesU cs = 7
      · exact ⟨[⟨cornerAt cs 0, cornerAt cs 1, cornerAt cs 2⟩],
          by simp [faceTriangles, h7]⟩
      · exact ⟨[⟨cornerAt cs 0, cornerAt cs 1, cornerAt cs 2⟩,
                ⟨cornerAt cs 0, cornerAt cs 2, cornerAt cs 3⟩],
          by simp [faceTriangles, h7, h']⟩

theorem appendToLast_ne_nil (ts : List Triangle) (gs : List (List Triangle))
    (h : gs ≠ []) : appendToLast ts gs ≠ [] := by
  cases gs with
  | nil => exact absurd rfl h
  | cons g0 rest =>
    cases rest with
    | nil => simp [appendToLast]
    | cons g1 rest => simp [appendToLast]

theorem pass3Go_ok_of_nonempty (textured : Bool) (orig : Nat)
    (lines : List ObjLine) :
    (∀ cs, ObjLine.f cs ∈ lines → faceAccepted textured cs = true) →
    (∀ l ∈ lines, gOk l) →
    ∀ (prev : Option ObjLine) (st : Pass3St),
    (∀ l, prev = some l → gOk l) →
    st.groups ≠ [] →
    ∃ st', pass3Go textured orig prev st lines = .ok st' := by
  induction lines with
  | nil => intro _ _ prev st _ _; exact ⟨st, rfl⟩
  | cons l rest ih =>
    intro hF hG prev st hprev hne
    have hF' : ∀ cs, ObjLine.f cs ∈ rest → faceAccepted textured cs = true :=
      fun cs h => hF cs (List.mem_cons_of_mem _ h)
    have hG' : ∀ x ∈ rest, gOk x := fun x h => hG x (List.mem_cons_of_mem _ h)
    have hprev' : ∀ x, (some l : Option ObjLine) = some x → gOk x :=
      fun x hx => (Option.some.inj hx) ▸ hG l (List.mem_cons_self _ _)
    cases l with
    | usemtl mat =>
      have hnext : ∀ x, rest.head? = some x → gOk x := by
        intro x hx
        exact hG' x (List.mem_of_mem_head? hx)
      obtain ⟨name, hname⟩ :=
        resolveMeshName_ok orig st.meshes.length prev rest.head? hprev hnext
      have hstep : pass3Step textured orig prev rest.head? (ObjLine.usemtl mat) st =
          .ok { groups := st.groups ++ [[]],
                meshes := st.meshes ++ [name],
                models := st.models ++ [(name, mat)] } := by
        simp [pass3Step, handleUsemtl, hname]
      obtain ⟨st', hst'⟩ := ih hF' hG' (some (ObjLine.usemtl mat))
        { groups := st.groups ++ [[]],
          meshes := st.meshes ++ [name],
          models := st.models ++ [(name, mat)] } hprev' (by simp)
      exact ⟨st', by simp [pass3Go, hstep, hst']⟩
    | f cs =>
      obtain ⟨ts, hts⟩ := faceTriangles_ok textured cs
        (hF cs (List.mem_cons_self _ _))
      cases hg : st.groups with
      | nil => exact absurd hg hne
      | cons g0 gs =>
        have hstep : pass3Step textured orig prev rest.head? (ObjLine.f cs) st =
            .ok { st with groups := appendToLast ts st.groups } := by
          simp [pass3Step, hts, pushTris, hg]
        obtain ⟨st', hst'⟩ := ih hF' hG' (some (ObjLine.f cs))
          { st with groups := appendToLast ts st.groups } hprev'
          (appendToLast_ne_nil ts st.groups hne)
        exact ⟨st', by simp [pass3Go, hstep, hst']⟩
    | v x y z =>
      obtain ⟨st', hst'⟩ := ih hF' hG' (some (ObjLine.v x y z)) st hprev' hne
      exact ⟨st', by simp [pass3Go, pass3Step, hst']⟩
    | vt x y =>
      obtain ⟨st', hst'⟩ := ih hF' hG' (some (ObjLine.vt x y)) st hprev' hne
      exact ⟨st', by simp [pass3Go, pass3Step, hst']⟩
    | vn x y z =>
      obtain ⟨st', hst'⟩ := ih hF' hG' (some (ObjLine.vn x y z)) st hprev' hne
      exact ⟨st', by simp [pass3Go, pass3Step, hst']⟩
    | g n =>
      obtain ⟨st', hst'⟩ := ih hF' hG' (some (ObjLine.g n)) st hprev' hne
      exact ⟨st', by simp [pass3Go, pass3Step, hst']⟩
    | mtllib p =>
      obtain ⟨st', hst'⟩ := ih hF' hG' (some (ObjLine.mtllib p)) st hprev' hne
      exact ⟨st', by simp [pass3Go, pass3Step, hst']⟩
    | blank =>
      obtain ⟨st', hst'⟩ := ih hF' hG' (some ObjLine.blank) st hprev' hne
      exact ⟨st', by simp [pass3Go, pass3Step, hst']⟩
    | other c ts =>
      obtain ⟨st', hst'⟩ := ih hF' hG' (some (ObjLine.other c ts)) st hprev' hne
      exact ⟨st', by simp [pass3Go, pass3Step, hst']⟩

theorem pass3Go_oob_iff (textured : Bool) (orig : Nat)
    (lines : List ObjLine) :
    (∀ cs, ObjLine.f cs ∈ lines → faceAccepted textured cs = true) →
    (∀ l ∈ lines, gOk l) →
    ∀ (prev : Option ObjLine) (st : Pass3St),
    (∀ l, prev = some l → gOk l) →
    (pass3Go textured orig prev st lines = .error .oobStore ↔
      (st.groups = [] ∧ fBeforeUsemtl lines = true)) := by
  induction lines with
  | nil =>
    intro _ _ prev st _
    simp [pass3Go, fBeforeUsemtl]
  | cons l rest ih =>
    intro hF hG prev st hprev
    have hF' : ∀ cs, ObjLine.f cs ∈ rest → faceAccepted textured cs = true :=
      fun cs h => hF cs (List.mem_cons_of_mem _ h)
    have hG' : ∀ x ∈ rest, gOk x := fun x h => hG x (List.mem_cons_of_mem _ h)
    have hprev' : ∀ x, (some l : Option ObjLine) = some x → gOk x :=
      fun x hx => (Option.some.inj hx) ▸ hG l (List.mem_cons_self _ _)
    cases l with
    | usemtl mat =>
      have hnext : ∀ x, rest.head? = some x → gOk x :=
        fun x hx => hG' x (List.mem_of_mem_head? hx)
      obtain ⟨name, hname⟩ :=
        resolveMeshName_ok orig st.meshes.length prev rest.head? hprev hnext
      have hstep : pass3Step textured orig prev rest.head? (ObjLine.usemtl mat) st =
          .ok { groups := st.groups ++ [[]],
                meshes := st.meshes ++ [name],
                models := st.models ++ [(name, mat)] } := by
        simp [pass3Step, handleUsemtl, hname]
      obtain ⟨st', hst'⟩ := pass3Go_ok_of_nonempty textured orig rest hF' hG'
        (some (ObjLine.usemtl mat))
        { groups := st.groups ++ [[]],
          meshes := st.meshes ++ [name],
          models := st.models ++ [(name, mat)] } hprev' (by simp)
      simp [pass3Go, hstep, hst', fBeforeUsemtl]
    | f cs =>
      obtain ⟨ts, hts⟩ := faceTriangles_ok textured cs
        (hF cs (List.mem_cons_self _ _))
      cases hg : st.groups with
      | nil =>
        have hstep : pass3Step textured orig prev rest.head? (ObjLine.f cs) st =
            .error .oobStore := by
          simp [pass3Step, hts, pushTris, hg]
        simp [pass3Go, hstep, hg, fBeforeUsemtl]
      | cons g0 gs =>
        have hstep : pass3Step textured orig prev rest.head? (ObjLine.f cs) st =
            .ok { st with groups := appendToLast ts st.groups } := by
          simp [pass3Step, hts, pushTris, hg]
        obtain ⟨st', hst'⟩ := pass3Go_ok_of_nonempty textured orig rest hF' hG'
          (some (ObjLine.f cs))
          { st with groups := appendToLast ts st.groups } hprev'
          (appendToLast_ne_nil ts st.groups (by rw [hg]; exact List.cons_ne_nil _ _))
        rw [hg] at hst'
        simp [pass3Go, hstep, hst', hg]
    | v x y z =>
      have := ih hF' hG' (some (ObjLine.v x y z)) st hprev'
      simpa [pass3Go, pass3Step, fBeforeUsemtl] using this
    | vt x y =>
      have := ih hF' hG' (some (ObjLine.vt x y)) st hprev'
      simpa [pass3Go, pass3Step, fBeforeUsemtl] using this
    | vn x y z =>
      have := ih hF' hG' (some (ObjLine.vn x y z)) st hprev'
      simpa [pass3Go, pass3Step, fBeforeUsemtl] using this
    | g n =>
      have := ih hF' hG' (some (ObjLine.g n)) st hprev'
      simpa [pass3Go, pass3Step, fBeforeUsemtl] using this
    | mtllib p =>
      have := ih hF' hG' (some (ObjLine.mtllib p)) st hprev'
      simpa [pass3Go, pass3Step, fBeforeUsemtl] using this
    | blank =>
      have := ih hF' hG' (some ObjLine.blank) st hprev'
      simpa [pass3Go, pass3Step, fBeforeUsemtl] using this
    | other c ts =>
      have := ih hF' hG' (some (ObjLine.other c ts)) st hprev'
      simpa [pass3Go, pass3Step, fBeforeUsemtl] using this

/-- C9: over files whose face records are grammatical for the selected
mode and whose group-letter lines carry a name (so no other fatal
branch intervenes), the group/face pass avoids the out-of-bounds
triangle store — the push through the group cursor placed one slot
before the group array — exactly when every `f` record is preceded by
some `usemtl` record. -/
theorem face_before_usemtl_oob_c9 (textured : Bool) (orig : Nat)
    (lines : List ObjLine)
    (hF : ∀ cs, ObjLine.f cs ∈ lines → faceAccepted textured cs = true)
    (hG : ∀ l ∈ lines, gOk l) :
    pass3 textured orig lines ≠ .error .oobStore ↔
      ∀ k cs, lines.get? k = some (ObjLine.f cs) →
        ∃ j nm, j < k ∧ lines.get? j = some (ObjLine.usemtl nm) := by
  have h1 := pass3Go_oob_iff textured orig lines hF hG none ⟨[], [], []⟩
    (fun l h => by cases h)
  rw [pass3]
  constructor
  · intro hne k cs hk
    have hnc : ¬ ((⟨[], [], []⟩ : Pass3St).groups = [] ∧
        fBeforeUsemtl lines = true) := fun hc => hne (h1.mpr hc)
    have hf : ¬ fBeforeUsemtl lines = true := fun hf' => hnc ⟨rfl, hf'⟩
    rw [fBeforeUsemtl_iff] at hf
    push_neg at hf
    obtain ⟨j, nm, hj, hju⟩ := hf k cs hk
    exact ⟨j, nm, hj, hju⟩
  · intro hall heq
    obtain ⟨-, hfb⟩ := h1.mp heq
    obtain ⟨k, cs, hk, hpre⟩ := (fBeforeUsemtl_iff lines).mp hfb
    obtain ⟨j, nm, hj, hju⟩ := hall k cs hk
    exact hpre j nm hj hju

/-- Witness for C9: a file whose only line is a well-formed textured
face record (no `usemtl` before it) drives the triangle store through
the group cursor at slot -1: the pass returns the out-of-bounds error. -/
theorem face_before_usemtl_oob_c9_witness :
    pass3 true 0
        [ObjLine.f [Corner.ptn 1 1 1, Corner.ptn 2 2 2, Corner.ptn 3 3 3]] =
      .error .oobStore := by
  by_contra hne
  have hF : ∀ cs, ObjLine.f cs ∈
      [ObjLine.f [Corner.ptn 1 1 1, Corner.ptn 2 2 2, Corner.ptn 3 3 3]] →
      faceAccepted true cs = true := by
    intro cs h
    simp only [List.mem_singleton, ObjLine.f.injEq] at h
    subst h
    decide
  have hG : ∀ l ∈
      [ObjLine.f [Corner.ptn 1 1 1, Corner.ptn 2 2 2, Corner.ptn 3 3 3]],
      gOk l := by
    intro l h
    simp only [List.mem_singleton] at h
    subst h
    intro hc
    simp [lineFirstChar] at hc
  obtain ⟨j, nm, hj, -⟩ :=
    (face_before_usemtl_oob_c9 true 0 _ hF hG).mp hne 0
      [Corner.ptn 1 1 1, Corner.ptn 2 2 2, Corner.ptn 3 3 3] rfl
  exact absurd hj (Nat.not_lt_zero j)

/-! ## Vertex deduplicator (source lines 461-490)

The loop walks one group's corner stream, keeps a `std::map<int3,int>`
from attribute triple to output slot (the map key order is the
lexicographic `operator<` of `int3`; lookups resolve exactly equal
triples, which is what the association-list model captures), emits one
slot index per corner, and appends one materialized vertex per
first-seen triple. -/

structure SimpleVertex where
  position : Vec3
  normal : Vec3
  texcoord : Vec2
deriving DecidableEq, Repr

/-- The flat attribute arrays the deduplicator reads. -/
structure Attrs where
  positions : List Vec3
  texcoords : List Vec2
  normals : List Vec3
deriving DecidableEq, Repr

def int3Zero : int3 := ⟨0, 0, 0⟩

/-- Materialize the `SimpleVertex` of one attribute triple exactly as
the insert branch does (source lines 476-484): position and normal are
1-based lookups (`p-1`, `n-1`), the texcoord is looked up at `t`
directly — slot 0 of the texcoord array holds the default `(0.5,0.5)`
pushed before parsing — and the V component is flipped
(`y = 1.0f - y`). -/
def materializeVertex (A : Attrs) (c : int3) : SimpleVertex :=
  { position := A.positions.getD (c.p - 1).toNat vec3Zero
  , normal := A.normals.getD (c.n - 1).toNat vec3Zero
  , texcoord := ⟨(A.texcoords.getD c.t.toNat vec2Zero).x,
                 1 - (A.texcoords.getD c.t.toNat vec2Zero).y⟩ }

structure DedupState where
  m : List (int3 × Nat)
  v : List SimpleVertex
  i : List Nat
deriving DecidableEq, Repr

/-- `m.find(index)`: resolve a triple in the map. -/
def mapFind (c : int3) : List (int3 × Nat) → Option Nat
  | [] => none
  | (k, s) :: rest => if c = k then some s else mapFind c rest

/-- One corner of the dedup loop (source lines 468-490): on a hit emit
the existing slot; on a miss emit and record the next slot and append
the materialized vertex. -/
def dedupStep (A : Attrs) (st : DedupState) (c : int3) : DedupState :=
  match mapFind c st.m with
  | some slot => { st with i := st.i ++ [slot] }
  | none =>
    { m := st.m ++ [(c, st.v.length)]
    , v := st.v ++ [materializeVertex A c]
    , i := st.i ++ [st.v.length] }

/-- The deduplicator over one group's corner stream. -/
def dedup (A : Attrs) (cs : List int3) : DedupState :=
  cs.foldl (dedupStep A) ⟨[], [], []⟩

/-- Corner stream of a group's triangle list, in face order. -/
def cornersOf (ts : List Triangle) : List int3 :=
  (ts.map (fun t => [t.c0, t.c1, t.c2])).join

def insSeen (d : List int3) (c : int3) : List int3 :=
  if c ∈ d then d else d ++ [c]

def seenFold (d : List int3) (cs : List int3) : List int3 :=
  cs.foldl insSeen d

/-- The distinct triples of a corner stream, in first-seen order. -/
def firstSeen (cs : List int3) : List int3 := seenFold [] cs

def firstIdx (c : int3) : List int3 → Nat
  | [] => 0
  | c2 :: rest => if c = c2 then 0 else firstIdx c rest + 1

def assocFrom (k : Nat) : List int3 → List (int3 × Nat)
  | [] => []
  | c :: rest => (c, k) :: assocFrom (k + 1) rest

def idxList (d : List int3) : List int3 → List Nat
  | [] => []
  | c :: cs => firstIdx c (insSeen d c) :: idxList (insSeen d c) cs

theorem mapFind_assocFrom (d : List int3) :
    ∀ (k : Nat) (c : int3),
    mapFind c (assocFrom k d) =
      if c ∈ d then some (k + firstIdx c d) else none := by
  induction d with
  | nil => intro k c; simp [assocFrom, mapFind]
  | cons c2 rest ih =>
    intro k c
    by_cases hc : c = c2
    · subst hc
      simp [assocFrom, mapFind, firstIdx]
    · simp only [assocFrom, mapFind, if_neg hc, ih (k + 1) c]
      by_cases hm : c ∈ rest
      · simp [hm, hc, firstIdx, if_neg hc]
        omega
      · simp [hm, hc, firstIdx]

theorem assocFrom_append (d : List int3) :
    ∀ (k : Nat) (c : int3),
    assocFrom k (d ++ [c]) = assocFrom k d ++ [(c, k + d.length)] := by
  induction d with
  | nil => intro k c; simp [assocFrom]
  | cons c2 rest ih =>
    intro k c
    have hk : k + 1 + rest.length = k + (rest.length + 1) := by omega
    simp only [List.cons_append, assocFrom, List.length_cons, List.append_eq]
    rw [ih (k + 1) c, hk]

theorem firstIdx_append_of_mem (d : List int3) (c : int3) (h : c ∈ d) :
    ∀ (e : List int3), firstIdx c (d ++ e) = firstIdx c d := by
  induction d with
  | nil => cases h
  | cons c2 rest ih =>
    intro e
    by_cases hc : c = c2
    · subst hc; simp [firstIdx]
    · have hm : c ∈ rest := by
        cases List.mem_cons.mp h with
        | inl h' => exact absurd h' hc
        | inr h' => exact h'
      simp [firstIdx, if_neg hc, ih hm e]

theorem firstIdx_append_self (d : List int3) (c : int3) (h : c ∉ d) :
    firstIdx c (d ++ [c]) = d.length := by
  induction d with
  | nil => simp [firstIdx]
  | cons c2 rest ih =>
    have hc : c ≠ c2 := fun he => h (he ▸ List.mem_cons_self _ _)
    have hm : c ∉ rest := fun hm => h (List.mem_cons_of_mem _ hm)
    simp [firstIdx, if_neg hc, ih hm]

theorem mem_insSeen (d : List int3) (c x : int3) :
    x ∈ insSeen d c ↔ x ∈ d ∨ x = c := by
  unfold insSeen
  by_cases h : c ∈ d
  · rw [if_pos h]
    constructor
    · exact Or.inl
    · rintro (hx | rfl)
      · exact hx
      · exact h
  · rw [if_neg h]
    simp

theorem seenFold_suffix (cs : List int3) :
    ∀ (d : List int3), ∃ e, seenFold d cs = d ++ e := by
  induction cs with
  | nil => intro d; exact ⟨[], by simp [seenFold]⟩
  | cons c cs ih =>
    intro d
    obtain ⟨e, he⟩ := ih (insSeen d c)
    have hstep : seenFold d (c :: cs) = seenFold (insSeen d c) cs := rfl
    by_cases h : c ∈ d
    · have hd : insSeen d c = d := by simp [insSeen, h]
      rw [hd] at he
      exact ⟨e, by rw [hstep, hd]; exact he⟩
    · have hd : insSeen d c = d ++ [c] := by simp [insSeen, h]
      rw [hd] at he
      refine ⟨c :: e, ?_⟩
      rw [hstep, hd, he]
      simp

theorem mem_seenFold (cs : List int3) :
    ∀ (d : List int3) (x : int3), x ∈ seenFold d cs ↔ x ∈ d ∨ x ∈ cs := by
  induction cs with
  | nil => intro d x; simp [seenFold]
  | cons c cs ih =>
    intro d x
    have : seenFold d (c :: cs) = seenFold (insSeen d c) cs := rfl
    rw [this, ih (insSeen d c) x, mem_insSeen]
    constructor
    · rintro ((hx | rfl) | hx)
      · exact Or.inl hx
      · exact Or.inr (List.mem_cons_self _ _)
      · exact Or.inr (List.mem_cons_of_mem _ hx)
    · rintro (hx | hx)
      · exact Or.inl (Or.inl hx)
      · cases List.mem_cons.mp hx with
        | inl h' => exact Or.inl (Or.inr h')
        | inr h' => exact Or.inr h'

theorem nodup_insSeen (d : List int3) (c : int3) (h : d.Nodup) :
    (insSeen d c).Nodup := by
  unfold insSeen
  by_cases hm : c ∈ d
  · rwa [if_pos hm]
  · rw [if_neg hm]
    simp [List.nodup_append, h, hm]

theorem nodup_seenFold (cs : List int3) :
    ∀ (d : List int3), d.Nodup → (seenFold d cs).Nodup := by
  induction cs with
  | nil => intro d h; simpa [seenFold] using h
  | cons c cs ih =>
    intro d h
    exact ih (insSeen d c) (nodup_insSeen d c h)

theorem dedup_go (A : Attrs) (cs : List int3) :
    ∀ (d : List int3) (i0 : List Nat),
    List.foldl (dedupStep A)
        ⟨assocFrom 0 d, d.map (materializeVertex A), i0⟩ cs =
      ⟨assocFrom 0 (seenFold d cs),
       (seenFold d cs).map (materializeVertex A),
       i0 ++ idxList d cs⟩ := by
  induction cs with
  | nil => intro d i0; simp [seenFold, idxList]
  | cons c cs ih =>
    intro d i0
    have hfind := mapFind_assocFrom d 0 c
    by_cases h : c ∈ d
    · have hstep : dedupStep A ⟨assocFrom 0 d, d.map (materializeVertex A), i0⟩ c =
          ⟨assocFrom 0 d, d.map (materializeVertex A), i0 ++ [firstIdx c d]⟩ := by
        simp [dedupStep, hfind, h]
      have hins : insSeen d c = d := by simp [insSeen, h]
      have hseen : seenFold d (c :: cs) = seenFold d cs := by
        show seenFold (insSeen d c) cs = seenFold d cs
        rw [hins]
      have hidx : idxList d (c :: cs) = firstIdx c d :: idxList d cs := by
        simp [idxList, hins]
      rw [List.foldl_cons, hstep, ih d (i0 ++ [firstIdx c d]), hseen, hidx]
      simp
    · have hstep : dedupStep A ⟨assocFrom 0 d, d.map (materializeVertex A), i0⟩ c =
          ⟨assocFrom 0 d ++ [(c, d.length)],
           d.map (materializeVertex A) ++ [materializeVertex A c],
           i0 ++ [d.length]⟩ := by
        simp [dedupStep, hfind, h]
      have hins : insSeen d c = d ++ [c] := by simp [insSeen, h]
      have hassoc : assocFrom 0 d ++ [(c, d.length)] = assocFrom 0 (d ++ [c]) := by
        rw [assocFrom_append d 0 c]
        simp
      have hmap : d.map (materializeVertex A) ++ [materializeVertex A c] =
          (d ++ [c]).map (materializeVertex A) := by simp
      have hseen : seenFold d (c :: cs) = seenFold (d ++ [c]) cs := by
        show seenFold (insSeen d c) cs = seenFold (d ++ [c]) cs
        rw [hins]
      have hidx : idxList d (c :: cs) = d.length :: idxList (d ++ [c]) cs := by
        simp [idxList, hins, firstIdx_append_self d c h]
      rw [List.foldl_cons, hstep, hassoc, hmap,
        ih (d ++ [c]) (i0 ++ [d.length]), hseen, hidx]
      simp

theorem idxList_length (cs : List int3) :
    ∀ d, (idxList d cs).length = cs.length := by
  induction cs with
  | nil => intro d; rfl
  | cons c cs ih => intro d; simp [idxList, ih]

theorem idxList_getD (cs : List int3) :
    ∀ (d : List int3) (k : Nat), k < cs.length →
    (idxList d cs).getD k 0 =
      firstIdx (cs.getD k int3Zero) (seenFold d cs) := by
  induction cs with
  | nil => intro d k hk; simp at hk
  | cons c cs ih =>
    intro d k hk
    cases k with
    | zero =>
      obtain ⟨e, he⟩ := seenFold_suffix cs (insSeen d c)
      have hmem : c ∈ insSeen d c := (mem_insSeen d c c).mpr (Or.inr rfl)
      have hseen : seenFold d (c :: cs) = insSeen d c ++ e := by
        show seenFold (insSeen d c) cs = insSeen d c ++ e
        exact he
      simp [idxList, hseen, firstIdx_append_of_mem _ c hmem e]
    | succ k =>
      have hk' : k < cs.length := Nat.lt_of_succ_lt_succ hk
      have hseen : seenFold d (c :: cs) = seenFold (insSeen d c) cs := rfl
      simpa [idxList, hseen] using ih (insSeen d c) k hk'

/-- Closed form of the deduplicator: the map is the first-seen distinct
list paired with its slot ordinals, the vertex buffer is that list
materialized, and the index buffer resolves each corner to the first
occurrence ordinal of its triple. -/
theorem dedup_eq (A : Attrs) (cs : List int3) :
    dedup A cs = ⟨assocFrom 0 (firstSeen cs),
      (firstSeen cs).map (materializeVertex A), idxList [] cs⟩ := by
  have h := dedup_go A cs [] []
  simpa [dedup, firstSeen] using h

theorem getD_mem (cs : List int3) :
    ∀ (k : Nat), k < cs.length → cs.getD k int3Zero ∈ cs := by
  induction cs with
  | nil => intro k hk; simp at hk
  | cons c cs ih =>
    intro k hk
    cases k with
    | zero => exact List.mem_cons_self _ _
    | succ k =>
      exact List.mem_cons_of_mem _ (ih k (Nat.lt_of_succ_lt_succ hk))

theorem getD_map_mat (A : Attrs) (D : List int3) :
    ∀ (i : Nat),
    (D.map (materializeVertex A)).getD i (materializeVertex A int3Zero) =
      materializeVertex A (D.getD i int3Zero) := by
  induction D with
  | nil => intro i; cases i <;> rfl
  | cons c D ih =>
    intro i
    cases i with
    | zero => rfl
    | succ j => simpa [List.getD] using ih j

theorem getD_firstIdx (D : List int3) (c : int3) (h : c ∈ D) :
    D.getD (firstIdx c D) int3Zero = c := by
  induction D with
  | nil => cases h
  | cons c2 D ih =>
    by_cases hc : c = c2
    · subst hc
      simp [firstIdx]
    · have hm : c ∈ D := by
        cases List.mem_cons.mp h with
        | inl h' => exact absurd h' hc
        | inr h' => exact h'
      simp only [firstIdx, if_neg hc]
      simpa [List.getD] using ih hm

theorem getD_map_firstIdx (A : Attrs) (D : List int3) (c : int3) (h : c ∈ D) :
    (D.map (materializeVertex A)).getD (firstIdx c D)
        (materializeVertex A int3Zero) = materializeVertex A c := by
  rw [getD_map_mat A D (firstIdx c D), getD_firstIdx D c h]

theorem take_succ_getD (cs : List int3) :
    ∀ (k : Nat), k < cs.length →
    cs.take (k + 1) = cs.take k ++ [cs.getD k int3Zero] := by
  induction cs with
  | nil => intro k hk; simp at hk
  | cons c cs ih =>
    intro k hk
    cases k with
    | zero => simp
    | succ k =>
      simp [List.take_succ_cons, ih k (Nat.lt_of_succ_lt_succ hk)]

/-- C1: over any group's triangle list, (i) two corners with equal
`(p,t,n)` triples resolve to the same output slot; (ii) one index is
emitted per corner; (iii) the output vertex buffer is exactly the
first-seen distinct triple list materialized — one vertex per distinct
triple, no duplicates, covering exactly the triples of the group, and
each processed corner appends a vertex precisely when its triple has
not been seen before (first-seen order); (iv) resolving any corner's
emitted index back through the output vertex buffer reproduces exactly
the vertex materialized from that corner's attribute triple (position,
flipped-V texcoord, normal). -/
theorem dedup_invariant_c1 (A : Attrs) (ts : List Triangle) :
    (∀ k1 k2, k1 < (cornersOf ts).length → k2 < (cornersOf ts).length →
      (cornersOf ts).getD k1 int3Zero = (cornersOf ts).getD k2 int3Zero →
      (dedup A (cornersOf ts)).i.getD k1 0 =
        (dedup A (cornersOf ts)).i.getD k2 0) ∧
    (dedup A (cornersOf ts)).i.length = (cornersOf ts).length ∧
    (dedup A (cornersOf ts)).v =
      (firstSeen (cornersOf ts)).map (materializeVertex A) ∧
    (firstSeen (cornersOf ts)).Nodup ∧
    (∀ c, c ∈ firstSeen (cornersOf ts) ↔ c ∈ cornersOf ts) ∧
    (∀ k, k < (cornersOf ts).length →
      (dedup A ((cornersOf ts).take (k + 1))).v =
        (dedup A ((cornersOf ts).take k)).v ++
          (if (cornersOf ts).getD k int3Zero ∈ (cornersOf ts).take k then []
           else [materializeVertex A ((cornersOf ts).getD k int3Zero)])) ∧
    (∀ k, k < (cornersOf ts).length →
      (dedup A (cornersOf ts)).v.getD ((dedup A (cornersOf ts)).i.getD k 0)
          (materializeVertex A int3Zero) =
        materializeVertex A ((cornersOf ts).getD k int3Zero)) := by
  generalize cornersOf ts = cs
  refine ⟨?_, ?_, ?_, ?_, ?_, ?_, ?_⟩
  · intro k1 k2 h1 h2 heq
    rw [dedup_eq]
    show (idxList [] cs).getD k1 0 = (idxList [] cs).getD k2 0
    rw [idxList_getD cs [] k1 h1, idxList_getD cs [] k2 h2, heq]
  · rw [dedup_eq]
    exact idxList_length cs []
  · rw [dedup_eq]
  · exact nodup_seenFold cs [] List.nodup_nil
  · intro c
    have h := mem_seenFold cs [] c
    simpa [firstSeen] using h
  · intro k hk
    rw [take_succ_getD cs k hk, dedup_eq A (cs.take k ++ [cs.getD k int3Zero]),
      dedup_eq A (cs.take k)]
    have hiff : cs.getD k int3Zero ∈ firstSeen (cs.take k) ↔
        cs.getD k int3Zero ∈ cs.take k := by
      simpa [firstSeen] using
        mem_seenFold (cs.take k) [] (cs.getD k int3Zero)
    have hfs : firstSeen (cs.take k ++ [cs.getD k int3Zero]) =
        insSeen (firstSeen (cs.take k)) (cs.getD k int3Zero) := by
      show seenFold [] (cs.take k ++ [cs.getD k int3Zero]) = _
      rw [seenFold, List.foldl_append]
      rfl
    show (firstSeen (cs.take k ++ [cs.getD k int3Zero])).map (materializeVertex A) =
      (firstSeen (cs.take k)).map (materializeVertex A) ++
        (if cs.getD k int3Zero ∈ cs.take k then []
         else [materializeVertex A (cs.getD k int3Zero)])
    rw [hfs]
    by_cases hmem : cs.getD k int3Zero ∈ cs.take k
    · simp only [insSeen, if_pos (hiff.mpr hmem), if_pos hmem, List.append_nil]
    · simp only [insSeen, if_neg (fun hc => hmem (hiff.mp hc)), if_neg hmem]
      simp
  · intro k hk
    rw [dedup_eq]
    show ((firstSeen cs).map (materializeVertex A)).getD
        ((idxList [] cs).getD k 0) (materializeVertex A int3Zero) =
      materializeVertex A (cs.getD k int3Zero)
    rw [idxList_getD cs [] k hk]
    have hiff : cs.getD k int3Zero ∈ firstSeen cs ↔
        cs.getD k int3Zero ∈ cs := by
      simpa [firstSeen] using mem_seenFold cs [] (cs.getD k int3Zero)
    exact getD_map_firstIdx A (firstSeen cs) _ (hiff.mpr (getD_mem cs k hk))

def c1Attrs : Attrs :=
  ⟨[⟨0, 0, 0⟩, ⟨1, 0, 0⟩], [⟨1/2, 1/2⟩, ⟨0, 1/4⟩], [⟨0, 0, 1⟩]⟩

def c1Tris : List Triangle := [⟨⟨1, 1, 1⟩, ⟨2, 1, 1⟩, ⟨1, 1, 1⟩⟩]

/-- Witness for C1: a triangle whose first and third corners carry the
same triple resolves both to slot 0, and resolving the first corner's
index reproduces its materialized vertex. -/
theorem dedup_invariant_c1_witness :
    (dedup c1Attrs (cornersOf c1Tris)).i.getD 0 0 =
      (dedup c1Attrs (cornersOf c1Tris)).i.getD 2 0 ∧
    (dedup c1Attrs (cornersOf c1Tris)).v.getD
        ((dedup c1Attrs (cornersOf c1Tris)).i.getD 0 0)
        (materializeVertex c1Attrs int3Zero) =
      materializeVertex c1Attrs ((cornersOf c1Tris).getD 0 int3Zero) := by
  obtain ⟨h1, h2, h3, h4, h5, h6, h7⟩ := dedup_invariant_c1 c1Attrs c1Tris
  exact ⟨h1 0 2 (by decide) (by decide) (by decide), h7 0 (by decide)⟩

/-- C6: for every vertex slot the deduplicator emits (slot `j` of the
output buffer), the vertex is the materialization of the slot's
first-seen triple; when the triple's texcoord index `t` is 0 the
texcoord comes from the default `(0.5, 0.5)` held at slot 0 of the
texcoord array, otherwise from the `t`-th declared texcoord; in both
cases the V component is flipped exactly once: the stored `v` equals
`1` minus the source `v`. -/
theorem texcoord_vflip_c6 (A : Attrs) (dec : List Vec2)
    (hA : A.texcoords = ⟨1/2, 1/2⟩ :: dec)
    (cs : List int3) (j : Nat) (hj : j < (firstSeen cs).length) :
    (dedup A cs).v.getD j (materializeVertex A int3Zero) =
      materializeVertex A ((firstSeen cs).getD j int3Zero) ∧
    (((firstSeen cs).getD j int3Zero).t = 0 →
      ((dedup A cs).v.getD j (materializeVertex A int3Zero)).texcoord =
        ⟨1/2, 1 - (1/2 : ℚ)⟩) ∧
    (0 < ((firstSeen cs).getD j int3Zero).t →
      ((dedup A cs).v.getD j (materializeVertex A int3Zero)).texcoord =
        ⟨(dec.getD (((firstSeen cs).getD j int3Zero).t - 1).toNat vec2Zero).x,
         1 - (dec.getD (((firstSeen cs).getD j int3Zero).t - 1).toNat vec2Zero).y⟩) := by
  have hv : (dedup A cs).v.getD j (materializeVertex A int3Zero) =
      materializeVertex A ((firstSeen cs).getD j int3Zero) := by
    rw [dedup_eq]
    exact getD_map_mat A (firstSeen cs) j
  have hzero : ∀ (c : int3), c.t = 0 →
      (materializeVertex A c).texcoord = ⟨1/2, 1 - (1/2 : ℚ)⟩ := by
    intro c ht
    simp [materializeVertex, hA, ht]
  have hpos : ∀ (c : int3), 0 < c.t →
      (materializeVertex A c).texcoord =
        ⟨(dec.getD (c.t - 1).toNat vec2Zero).x,
         1 - (dec.getD (c.t - 1).toNat vec2Zero).y⟩ := by
    intro c ht
    have htn : c.t.toNat = (c.t - 1).toNat + 1 := by omega
    simp only [materializeVertex]
    rw [hA, htn, List.getD_cons_succ]
  refine ⟨hv, ?_, ?_⟩
  · intro ht
    rw [hv]
    exact hzero _ ht
  · intro ht
    rw [hv]
    exact hpos _ ht

def c6Attrs : Attrs :=
  ⟨[⟨0, 0, 0⟩], [⟨1/2, 1/2⟩, ⟨0, 1/4⟩], [⟨0, 0, 1⟩]⟩

/-- Witness for C6 at a corner with texcoord index 0: the emitted
vertex carries the default texcoord with its V component flipped. -/
theorem texcoord_vflip_c6_witness :
    ((dedup c6Attrs [⟨1, 0, 1⟩]).v.getD 0
        (materializeVertex c6Attrs int3Zero)).texcoord =
      ⟨1/2, 1 - (1/2 : ℚ)⟩ := by
  obtain ⟨-, h2, -⟩ :=
    texcoord_vflip_c6 c6Attrs [⟨0, 1/4⟩] rfl [⟨1, 0, 1⟩] 0 (by decide)
  exact h2 (by decide)

/-! ## Tangent-space calculator `calculate_tangets` (source lines 166-215)

The scalar `r = 1 / det` is exact rational division; for a zero
determinant (degenerate UV mapping, flagged in the spec as an
unguarded edge) the Lean convention `1 / 0 = 0` stands in for the
float infinity — the write-policy statements proved here are
independent of the computed scalar value.  The 16-bit and 32-bit index
layouts extract the same index values, so the embedding takes the
index list directly. -/

/-- `Vertex` (source lines 29-36); `new Vertex[n]` memory is modelled
zero-initialized. -/
structure Vertex where
  position : Vec3
  normal : Vec3
  texcoord : Vec2
  tangent : Vec3
  bitangent : Vec3
deriving DecidableEq, Repr

def toVertex (s : SimpleVertex) : Vertex :=
  { position := s.position, normal := s.normal, texcoord := s.texcoord,
    tangent := vec3Zero, bitangent := vec3Zero }

def simpleZero : SimpleVertex := ⟨vec3Zero, vec3Zero, vec2Zero⟩

def vertexZero : Vertex := toVertex simpleZero

/-- One triangle's tangent/bitangent (source lines 190-204), from the
three corner positions and texcoords. -/
def tanbit (p0 p1 p2 : Vec3) (t0 t1 t2 : Vec2) : Vec3 × Vec3 :=
  let delta_pos1 := vec3_sub p1 p0
  let delta_pos2 := vec3_sub p2 p0
  let delta_uv1 := vec2_sub t1 t0
  let delta_uv2 := vec2_sub t2 t0
  let r := 1 / (delta_uv1.x * delta_uv2.y - delta_uv1.y * delta_uv2.x)
  (vec3_mul_scalar
     (vec3_sub (vec3_mul_scalar delta_pos1 delta_uv2.y)
               (vec3_mul_scalar delta_pos2 delta_uv1.y)) r,
   vec3_mul_scalar
     (vec3_sub (vec3_mul_scalar delta_pos2 delta_uv1.x)
               (vec3_mul_scalar delta_pos1 delta_uv2.x)) r)

/-- The triangle's basis computed from the current vertex buffer. -/
def tanbitOf (vs : List Vertex) (tr : Nat × Nat × Nat) : Vec3 × Vec3 :=
  tanbit (vs.getD tr.1 vertexZero).position
         (vs.getD tr.2.1 vertexZero).position
         (vs.getD tr.2.2 vertexZero).position
         (vs.getD tr.1 vertexZero).texcoord
         (vs.getD tr.2.1 vertexZero).texcoord
         (vs.getD tr.2.2 vertexZero).texcoord

/-- The same basis computed from the input simple vertices. -/
def specTB (svs : List SimpleVertex) (tr : Nat × Nat × Nat) : Vec3 × Vec3 :=
  tanbit (svs.getD tr.1 simpleZero).position
         (svs.getD tr.2.1 simpleZero).position
         (svs.getD tr.2.2 simpleZero).position
         (svs.getD tr.1 simpleZero).texcoord
         (svs.getD tr.2.1 simpleZero).texcoord
         (svs.getD tr.2.2 simpleZero).texcoord

/-- Overwrite the tangent/bitangent fields of the vertex at `i`. -/
def setTB (tb : Vec3 × Vec3) (l : List Vertex) (i : Nat) : List Vertex :=
  match l.get? i with
  | some vv => l.set i { vv with tangent := tb.1, bitangent := tb.2 }
  | none => l

/-- One triangle of the loop (source lines 186-212): compute the basis
from the current buffer, then write it into all three vertices. -/
def applyTri (vs : List Vertex) (tr : Nat × Nat × Nat) : List Vertex :=
  setTB (tanbitOf vs tr)
    (setTB (tanbitOf vs tr) (setTB (tanbitOf vs tr) vs tr.1) tr.2.1) tr.2.2

/-- Indices consumed 3 at a time, in index-buffer order (source line
174). -/
def chunk3 : List Nat → List (Nat × Nat × Nat)
  | a :: b :: c :: rest => (a, b, c) :: chunk3 rest
  | _ => []

/-- `calculate_tangets` (spelling kept from the source): copy the
simple vertices into full vertices, then fold the per-triangle
overwrites in index-buffer order. -/
def calculate_tangets (svs : List SimpleVertex) (idx : List Nat) :
    List Vertex :=
  (chunk3 idx).foldl applyTri (svs.map toVertex)

/-- Does the triangle reference vertex `k`? -/
def hits (k : Nat) (tr : Nat × Nat × Nat) : Bool :=
  k == tr.1 || k == tr.2.1 || k == tr.2.2

theorem setTB_length (tb : Vec3 × Vec3) (l : List Vertex) (i : Nat) :
    (setTB tb l i).length = l.length := by
  unfold setTB
  cases l.get? i <;> simp

theorem setTB_getD (tb : Vec3 × Vec3) (l : List Vertex) (i k : Nat) :
    (setTB tb l i).getD k vertexZero =
      if k = i ∧ k < l.length then
        { l.getD k vertexZero with tangent := tb.1, bitangent := tb.2 }
      else l.getD k vertexZero := by
  unfold setTB
  cases hget : l.get? i with
  | none =>
    have hlen : l.length ≤ i := List.get?_eq_none.mp hget
    rw [if_neg]
    rintro ⟨rfl, hk⟩
    omega
  | some vv =>
    have hlen : i < l.length := by
      by_contra hc
      rw [List.get?_eq_none.mpr (Nat.le_of_not_lt hc)] at hget
      cases hget
    by_cases hki : k = i
    · subst hki
      rw [if_pos ⟨rfl, hlen⟩]
      have hvv : l.getD k vertexZero = vv := by
        rw [List.getD_eq_getD_get?, hget]
        rfl
      rw [hvv, List.getD_eq_getD_get?,
        List.get?_set_eq_of_lt _ hlen]
      rfl
    · rw [if_neg (fun hc => hki hc.1), List.getD_eq_getD_get?,
        List.get?_set_ne _ _ (fun hc => hki hc.symm),
        ← List.getD_eq_getD_get?]

theorem applyTri_length (vs : List Vertex) (tr : Nat × Nat × Nat) :
    (applyTri vs tr).length = vs.length := by
  unfold applyTri
  rw [setTB_length, setTB_length, setTB_length]

theorem applyTri_getD_ne (vs : List Vertex) (tr : Nat × Nat × Nat)
    (k : Nat) (h : hits k tr = false) :
    (applyTri vs tr).getD k vertexZero = vs.getD k vertexZero := by
  have h' : ¬ k = tr.1 ∧ ¬ k = tr.2.1 ∧ ¬ k = tr.2.2 := by
    simpa [hits, and_assoc] using h
  unfold applyTri
  rw [setTB_getD, if_neg (fun hc => h'.2.2 hc.1),
    setTB_getD, if_neg (fun hc => h'.2.1 hc.1),
    setTB_getD, if_neg (fun hc => h'.1 hc.1)]

theorem applyTri_getD_hit (vs : List Vertex) (tr : Nat × Nat × Nat)
    (k : Nat) (hk : k < vs.length) (hh : hits k tr = true) :
    (applyTri vs tr).getD k vertexZero =
      { vs.getD k vertexZero with
        tangent := (tanbitOf vs tr).1, bitangent := (tanbitOf vs tr).2 } := by
  have h' : k = tr.1 ∨ k = tr.2.1 ∨ k = tr.2.2 := by
    simpa [hits, or_assoc] using hh
  unfold applyTri
  rw [setTB_getD, setTB_getD, setTB_getD, setTB_length, setTB_length]
  by_cases h3 : k = tr.2.2
  · rw [if_pos ⟨h3, hk⟩]
    by_cases h2 : k = tr.2.1
    · rw [if_pos ⟨h2, hk⟩]
      by_cases h1 : k = tr.1
      · rw [if_pos ⟨h1, hk⟩]
      · rw [if_neg (fun hc => h1 hc.1)]
    · rw [if_neg (fun hc => h2 hc.1)]
      by_cases h1 : k = tr.1
      · rw [if_pos ⟨h1, hk⟩]
      · rw [if_neg (fun hc => h1 hc.1)]
  · rw [if_neg (fun hc => h3 hc.1)]
    by_cases h2 : k = tr.2.1
    · rw [if_pos ⟨h2, hk⟩]
      by_cases h1 : k = tr.1
      · rw [if_pos ⟨h1, hk⟩]
      · rw [if_neg (fun hc => h1 hc.1)]
    · rw [if_neg (fun hc => h2 hc.1)]
      have h1 : k = tr.1 := by tauto
      rw [if_pos ⟨h1, hk⟩]

/-- The buffer agrees with the input simple vertices on the fields the
basis computation reads (length, positions, texcoords). -/
def frameOk (svs : List SimpleVertex) (vs : List Vertex) : Prop :=
  vs.length = svs.length ∧
  ∀ k, (vs.getD k vertexZero).position = (svs.getD k simpleZero).position ∧
       (vs.getD k vertexZero).texcoord = (svs.getD k simpleZero).texcoord

theorem getD_map_toVertex (svs : List SimpleVertex) :
    ∀ (k : Nat),
    (svs.map toVertex).getD k vertexZero = toVertex (svs.getD k simpleZero) := by
  induction svs with
  | nil => intro k; cases k <;> rfl
  | cons s svs ih =>
    intro k
    cases k with
    | zero => rfl
    | succ j => simpa [List.getD] using ih j

theorem frameOk_init (svs : List SimpleVertex) :
    frameOk svs (svs.map toVertex) := by
  constructor
  · simp
  · intro k
    rw [getD_map_toVertex svs k]
    exact ⟨rfl, rfl⟩

theorem setTB_frame (tb : Vec3 × Vec3) (l : List Vertex) (i k : Nat) :
    ((setTB tb l i).getD k vertexZero).position =
      (l.getD k vertexZero).position ∧
    ((setTB tb l i).getD k vertexZero).texcoord =
      (l.getD k vertexZero).texcoord := by
  rw [setTB_getD]
  by_cases hc : k = i ∧ k < l.length
  · rw [if_pos hc]
    exact ⟨rfl, rfl⟩
  · rw [if_neg hc]
    exact ⟨rfl, rfl⟩

theorem frameOk_applyTri (svs : List SimpleVertex) (vs : List Vertex)
    (tr : Nat × Nat × Nat) (h : frameOk svs vs) :
    frameOk svs (applyTri vs tr) := by
  obtain ⟨hlen, hfields⟩ := h
  constructor
  · rw [applyTri_length]
    exact hlen
  · intro k
    unfold applyTri
    obtain ⟨p3, t3⟩ := setTB_frame (tanbitOf vs tr)
      (setTB (tanbitOf vs tr) (setTB (tanbitOf vs tr) vs tr.1) tr.2.1) tr.2.2 k
    obtain ⟨p2, t2⟩ := setTB_frame (tanbitOf vs tr)
      (setTB (tanbitOf vs tr) vs tr.1) tr.2.1 k
    obtain ⟨p1, t1⟩ := setTB_frame (tanbitOf vs tr) vs tr.1 k
    obtain ⟨hp, ht⟩ := hfields k
    exact ⟨by rw [p3, p2, p1, hp], by rw [t3, t2, t1, ht]⟩

theorem tanbitOf_frame (svs : List SimpleVertex) (vs : List Vertex)
    (tr : Nat × Nat × Nat) (h : frameOk svs vs) :
    tanbitOf vs tr = specTB svs tr := by
  obtain ⟨-, hfields⟩ := h
  unfold tanbitOf specTB
  rw [(hfields tr.1).1, (hfields tr.2.1).1, (hfields tr.2.2).1,
    (hfields tr.1).2, (hfields tr.2.1).2, (hfields tr.2.2).2]

theorem fold_untouched (trs : List (Nat × Nat × Nat)) :
    ∀ (vs : List Vertex) (k : Nat), (∀ tr ∈ trs, hits k tr = false) →
    (trs.foldl applyTri vs).getD k vertexZero = vs.getD k vertexZero := by
  induction trs with
  | nil => intro vs k _; rfl
  | cons tr trs ih =>
    intro vs k h
    rw [List.foldl_cons,
      ih (applyTri vs tr) k (fun t ht => h t (List.mem_cons_of_mem _ ht)),
      applyTri_getD_ne vs tr k (h tr (List.mem_cons_self _ _))]

theorem fold_last_write (svs : List SimpleVertex)
    (trs : List (Nat × Nat × Nat)) :
    ∀ (vs : List Vertex), frameOk svs vs →
    ∀ (k j : Nat), k < vs.length → j < trs.length →
    hits k (trs.getD j (0, 0, 0)) = true →
    (∀ j2, j < j2 → j2 < trs.length →
      hits k (trs.getD j2 (0, 0, 0)) = false) →
    ((trs.foldl applyTri vs).getD k vertexZero).tangent =
      (specTB svs (trs.getD j (0, 0, 0))).1 ∧
    ((trs.foldl applyTri vs).getD k vertexZero).bitangent =
      (specTB svs (trs.getD j (0, 0, 0))).2 := by
  induction trs with
  | nil => intro vs _ k j _ hj _ _; simp at hj
  | cons tr trs ih =>
    intro vs hframe k j hk hj hhit hlast
    cases j with
    | zero =>
      have hnone : ∀ tr2 ∈ trs, hits k tr2 = false := by
        intro tr2 htr2
        obtain ⟨n, hn⟩ := List.get?_of_mem htr2
        have hnlen : n < trs.length := by
          by_contra hc
          rw [List.get?_eq_none.mpr (Nat.le_of_not_lt hc)] at hn
          cases hn
        have hgd : trs.getD n (0, 0, 0) = tr2 := by
          rw [List.getD_eq_getD_get?, hn]
          rfl
        have := hlast (n + 1) (Nat.succ_pos n) (by simpa using Nat.succ_lt_succ hnlen)
        rw [show (tr :: trs).getD (n + 1) (0, 0, 0) = trs.getD n (0, 0, 0) from rfl,
          hgd] at this
        exact this
      have hhit0 : hits k tr = true := by simpa using hhit
      rw [List.foldl_cons, fold_untouched trs (applyTri vs tr) k hnone,
        applyTri_getD_hit vs tr k hk hhit0, tanbitOf_frame svs vs tr hframe]
      exact ⟨rfl, rfl⟩
    | succ j =>
      have hframe' := frameOk_applyTri svs vs tr hframe
      have hk' : k < (applyTri vs tr).length := by
        rw [applyTri_length]
        exact hk
      have hlast' : ∀ j2, j < j2 → j2 < trs.length →
          hits k (trs.getD j2 (0, 0, 0)) = false := by
        intro j2 hj1 hj2
        have := hlast (j2 + 1) (Nat.succ_lt_succ hj1)
          (by simpa using Nat.succ_lt_succ hj2)
        simpa using this
      have := ih (applyTri vs tr) hframe' k j hk'
        (by simpa using hj) (by simpa using hhit) hlast'
      simpa using this

/-- C7: triangles are processed in index-buffer order (3 indices at a
time), and each triangle overwrites the tangent and bitangent of all 3
of its vertices; hence for every vertex `k`, if the `j`-th triangle
references `k` and no later triangle does, the final tangent and
bitangent of `k` are exactly those computed for that triangle from the
input vertex data — no accumulation or averaging across shared
vertices. -/
theorem tangent_last_writer_c7 (svs : List SimpleVertex) (idx : List Nat)
    (k j : Nat) (hk : k < svs.length) (hj : j < (chunk3 idx).length)
    (hhit : hits k ((chunk3 idx).getD j (0, 0, 0)) = true)
    (hlast : ∀ j2, j < j2 → j2 < (chunk3 idx).length →
      hits k ((chunk3 idx).getD j2 (0, 0, 0)) = false) :
    ((calculate_tangets svs idx).getD k vertexZero).tangent =
      (specTB svs ((chunk3 idx).getD j (0, 0, 0))).1 ∧
    ((calculate_tangets svs idx).getD k vertexZero).bitangent =
      (specTB svs ((chunk3 idx).getD j (0, 0, 0))).2 :=
  fold_last_write svs (chunk3 idx) (svs.map toVertex) (frameOk_init svs)
    k j (by simpa using hk) hj hhit hlast

def c7Svs : List SimpleVertex :=
  [⟨⟨0, 0, 0⟩, vec3Zero, ⟨0, 0⟩⟩, ⟨⟨1, 0, 0⟩, vec3Zero, ⟨1, 0⟩⟩,
   ⟨⟨0, 1, 0⟩, vec3Zero, ⟨0, 1⟩⟩, ⟨⟨1, 1, 0⟩, vec3Zero, ⟨1, 1⟩⟩]

/-- Witness for C7: two triangles share vertex 2; its final basis is
that of the second (last) triangle. -/
theorem tangent_last_writer_c7_witness :
    ((calculate_tangets c7Svs [0, 1, 2, 1, 2, 3]).getD 2 vertexZero).tangent =
      (specTB c7Svs ((chunk3 [0, 1, 2, 1, 2, 3]).getD 1 (0, 0, 0))).1 := by
  obtain ⟨h1, -⟩ := tangent_last_writer_c7 c7Svs [0, 1, 2, 1, 2, 3] 2 1
    (by decide) (by decide) (by decide)
    (by
      intro j2 ha hb
      rw [show (chunk3 [0, 1, 2, 1, 2, 3]).length = 2 from rfl] at hb
      exfalso
      omega)
  exact h1
